import Mathlib

/-!
Verification of the rclone encryption overlay (`crypt` backend) and the
cookie-handling helpers of this repository.

The content cipher, filename codec, key derivation and wrapping filesystem
are described by the specification; their Go sources (`cipher.go`,
`crypt.go`) are not part of the source tree here (only their tests and
callers are), so those components are modelled from the spec, as marked on
each definition.  The cookie jar and `editthiscookie` entry conversion are
translated directly from the Go sources.
-/

/-- A byte, as stored in ciphertext streams. -/
abbrev Byte := Fin 256

deriving instance DecidableEq for Except

/-- Error kinds of the encryption overlay (spec section 7). -/
inductive CryptError
  | BadHeader
  | BadAuth
  | BadLength
  | BadFilename
  deriving DecidableEq

namespace Crypt

/-- Map a function over a byte list together with the index of each element,
starting the index count at `i`. -/
def mapIdxFrom (f : Nat → Byte → Byte) : Nat → List Byte → List Byte
  | _, [] => []
  | i, b :: rest => f i b :: mapIdxFrom f (i + 1) rest

theorem length_mapIdxFrom (f : Nat → Byte → Byte) :
    ∀ (i : Nat) (l : List Byte), (mapIdxFrom f i l).length = l.length := by
  intro i l
  induction l generalizing i with
  | nil => rfl
  | cons b rest ih => simp [mapIdxFrom, ih]

theorem mapIdxFrom_mapIdxFrom (f g : Nat → Byte → Byte) :
    ∀ (i : Nat) (l : List Byte),
      mapIdxFrom g i (mapIdxFrom f i l) = mapIdxFrom (fun j b => g j (f j b)) i l := by
  intro i l
  induction l generalizing i with
  | nil => rfl
  | cons b rest ih => simp [mapIdxFrom, ih]

theorem mapIdxFrom_id (f : Nat → Byte → Byte) (hf : ∀ j b, f j b = b) :
    ∀ (i : Nat) (l : List Byte), mapIdxFrom f i l = l := by
  intro i l
  induction l generalizing i with
  | nil => rfl
  | cons b rest ih => simp [mapIdxFrom, hf, ih]

theorem take_mapIdxFrom (f : Nat → Byte → Byte) :
    ∀ (k i : Nat) (l : List Byte),
      (mapIdxFrom f i l).take k = mapIdxFrom f i (l.take k) := by
  intro k
  induction k with
  | zero => intro i l; simp [mapIdxFrom]
  | succ k ih =>
    intro i l
    cases l with
    | nil => rfl
    | cons b rest => simp [mapIdxFrom, List.take_succ_cons, ih]

theorem mapIdxFrom_set (f : Nat → Byte → Byte) :
    ∀ (l : List Byte) (i j : Nat) (v : Byte),
      mapIdxFrom f i (l.set j v) = (mapIdxFrom f i l).set j (f (i + j) v) := by
  intro l
  induction l with
  | nil => intro i j v; simp [mapIdxFrom]
  | cons b rest ih =>
    intro i j v
    cases j with
    | zero => simp [mapIdxFrom]
    | succ j =>
      have h : i + 1 + j = i + (j + 1) := by omega
      simp only [List.set_cons_succ, mapIdxFrom, ih, h]

theorem getElem_mapIdxFrom (f : Nat → Byte → Byte) :
    ∀ (l : List Byte) (i j : Nat) (h : j < (mapIdxFrom f i l).length)
      (h' : j < l.length), (mapIdxFrom f i l)[j] = f (i + j) l[j] := by
  intro l
  induction l with
  | nil => intro i j h h'; simp at h'
  | cons b rest ih =>
    intro i j h h'
    cases j with
    | zero => simp [mapIdxFrom]
    | succ j =>
      simp only [mapIdxFrom, List.getElem_cons_succ]
      have h2 : j < (mapIdxFrom f (i + 1) rest).length := by
        rw [length_mapIdxFrom]; simpa using h'
      refine (ih (i + 1) j h2 (by simpa using h')).trans ?_
      have h3 : i + 1 + j = i + (j + 1) := by omega
      rw [h3]

/-- Little-endian multi-byte addition with carry, truncating at the list
length: this is the "nonce + k (little-endian 128-bit add mod 2^128)"
operation of the spec when applied to a 16-byte nonce. -/
def nonceAdd : List Byte → Nat → List Byte
  | [], _ => []
  | b :: rest, x =>
    ⟨(b.val + x) % 256, Nat.mod_lt _ (by omega)⟩ :: nonceAdd rest ((b.val + x) / 256)

/-- The value of a byte list read as a little-endian natural number. -/
def nonceVal : List Byte → Nat
  | [] => 0
  | b :: rest => b.val + 256 * nonceVal rest

theorem length_nonceAdd : ∀ (n : List Byte) (x : Nat), (nonceAdd n x).length = n.length := by
  intro n
  induction n with
  | nil => intro x; rfl
  | cons b rest ih => intro x; simp [nonceAdd, ih]

theorem nonceAdd_zero : ∀ (n : List Byte), nonceAdd n 0 = n := by
  intro n
  induction n with
  | nil => rfl
  | cons b rest ih =>
    simp only [nonceAdd, Nat.add_zero]
    rw [Nat.div_eq_of_lt b.isLt, ih]
    congr 1
    exact Fin.ext (Nat.mod_eq_of_lt b.isLt)

theorem nonceVal_nonceAdd :
    ∀ (n : List Byte) (x : Nat),
      nonceVal (nonceAdd n x) = (nonceVal n + x) % 2 ^ (8 * n.length) := by
  intro n
  induction n with
  | nil => intro x; simp [nonceAdd, nonceVal]; omega
  | cons b rest ih =>
    intro x
    simp only [nonceAdd, nonceVal, ih, List.length_cons]
    have hpow : 2 ^ (8 * (rest.length + 1)) = 256 * 2 ^ (8 * rest.length) := by
      rw [show 8 * (rest.length + 1) = 8 + 8 * rest.length by ring, Nat.pow_add]
    rw [hpow, Nat.mod_mul]
    have h1 : (b.val + 256 * nonceVal rest + x) % 256 = (b.val + x) % 256 := by omega
    have h2 : (b.val + 256 * nonceVal rest + x) / 256 = (b.val + x) / 256 + nonceVal rest := by
      omega
    rw [h1, h2, Nat.add_comm (nonceVal rest) ((b.val + x) / 256)]

theorem nonceVal_inj :
    ∀ (n₁ n₂ : List Byte), n₁.length = n₂.length → nonceVal n₁ = nonceVal n₂ → n₁ = n₂ := by
  intro n₁
  induction n₁ with
  | nil => intro n₂ hl _; cases n₂ with | nil => rfl | cons => simp at hl
  | cons b rest ih =>
    intro n₂ hl hv
    cases n₂ with
    | nil => simp at hl
    | cons b₂ rest₂ =>
      simp only [nonceVal] at hv
      have hb : b.val = b₂.val := by
        have := b.isLt; have := b₂.isLt; omega
      have hr : nonceVal rest = nonceVal rest₂ := by omega
      simp only [List.length_cons] at hl
      rw [Fin.ext hb, ih rest₂ (by omega) hr]

theorem nonceAdd_nonceAdd (n : List Byte) (a b : Nat) :
    nonceAdd (nonceAdd n a) b = nonceAdd n (a + b) := by
  apply nonceVal_inj
  · rw [length_nonceAdd, length_nonceAdd, length_nonceAdd]
  · rw [nonceVal_nonceAdd, nonceVal_nonceAdd, nonceVal_nonceAdd, length_nonceAdd,
      Nat.mod_add_mod, Nat.add_assoc]

/-- Weighted checksum of a byte list: the byte at absolute position `p`
contributes `(b + 1) * (p + 1)`; the first argument is the position of the
first listed byte. -/
def chkSum : Nat → List Byte → Nat
  | _, [] => 0
  | i, b :: rest => (b.val + 1) * (i + 1) + chkSum (i + 1) rest

/-- Little-endian serialization of a natural number into `k` bytes. -/
def serBytes : Nat → Nat → List Byte
  | 0, _ => []
  | k + 1, v => ⟨v % 256, Nat.mod_lt _ (by omega)⟩ :: serBytes k (v / 256)

theorem length_serBytes : ∀ (k v : Nat), (serBytes k v).length = k := by
  intro k
  induction k with
  | zero => intro v; rfl
  | succ k ih => intro v; simp [serBytes, ih]

theorem serBytes_inj :
    ∀ (k v w : Nat), v < 2 ^ (8 * k) → w < 2 ^ (8 * k) →
      serBytes k v = serBytes k w → v = w := by
  intro k
  induction k with
  | zero => intro v w hv hw _; simp at hv hw; omega
  | succ k ih =>
    intro v w hv hw h
    simp only [serBytes, List.cons.injEq, Fin.mk.injEq] at h
    obtain ⟨h1, h2⟩ := h
    have hsplit : 2 ^ (8 * (k + 1)) = 256 * 2 ^ (8 * k) := by
      rw [show 8 * (k + 1) = 8 + 8 * k by ring, Nat.pow_add]
    have hv' : v / 256 < 2 ^ (8 * k) := by omega
    have hw' : w / 256 < 2 ^ (8 * k) := by omega
    have := ih (v / 256) (w / 256) hv' hw' h2
    omega

theorem chkSum_le : ∀ (i : Nat) (l : List Byte), chkSum i l ≤ l.length * (256 * (i + l.length)) := by
  intro i l
  induction l generalizing i with
  | nil => simp [chkSum]
  | cons b rest ih =>
    simp only [chkSum, List.length_cons]
    have h1 : (b.val + 1) * (i + 1) ≤ 256 * (i + (rest.length + 1)) := by
      have hb : b.val + 1 ≤ 256 := by omega
      calc (b.val + 1) * (i + 1) ≤ 256 * (i + 1) := Nat.mul_le_mul_right _ hb
        _ ≤ 256 * (i + (rest.length + 1)) := Nat.mul_le_mul_left _ (by omega)
    have h2 : chkSum (i + 1) rest ≤ rest.length * (256 * (i + 1 + rest.length)) := ih (i + 1)
    have h3 : rest.length * (256 * (i + 1 + rest.length))
        = rest.length * (256 * (i + (rest.length + 1))) := by ring_nf
    calc (b.val + 1) * (i + 1) + chkSum (i + 1) rest
        ≤ 256 * (i + (rest.length + 1)) + rest.length * (256 * (i + (rest.length + 1))) := by
          omega
      _ = (rest.length + 1) * (256 * (i + (rest.length + 1))) := by ring

theorem chkSum_set :
    ∀ (l : List Byte) (i p : Nat) (v : Byte) (hp : p < l.length),
      chkSum i (l.set p v) + (l[p].val + 1) * (i + p + 1)
        = chkSum i l + (v.val + 1) * (i + p + 1) := by
  intro l
  induction l with
  | nil => intro i p v hp; simp at hp
  | cons b rest ih =>
    intro i p v hp
    cases p with
    | zero =>
      simp only [List.set_cons_zero, chkSum, List.getElem_cons_zero, Nat.add_zero]
      omega
    | succ p =>
      simp only [List.set_cons_succ, chkSum, List.getElem_cons_succ]
      have := ih (i + 1) p v (by simpa using hp)
      have harith : i + 1 + p + 1 = i + (p + 1) + 1 := by omega
      rw [harith] at this
      omega

/-- Keystream byte at position `i` for a given chunk nonce (the model's
stand-in for the XSalsa20 keystream of the missing source). -/
def ks (n : List Byte) (i : Nat) : Byte := ⟨(nonceVal n + i) % 256, Nat.mod_lt _ (by omega)⟩

/-- Modelled from the spec: the stream-cipher half of the missing
`cipher.go` AEAD, as a per-byte keyed bijection. -/
def maskBytes (n : List Byte) (m : List Byte) : List Byte :=
  mapIdxFrom (fun i b => b + ks n i) 0 m

def unmaskBytes (n : List Byte) (c : List Byte) : List Byte :=
  mapIdxFrom (fun i b => b - ks n i) 0 c

theorem length_maskBytes (n m : List Byte) : (maskBytes n m).length = m.length :=
  length_mapIdxFrom _ _ _

theorem unmaskBytes_maskBytes (n m : List Byte) : unmaskBytes n (maskBytes n m) = m := by
  rw [maskBytes, unmaskBytes, mapIdxFrom_mapIdxFrom]
  exact mapIdxFrom_id _ (fun j b => add_sub_cancel_right b (ks n j)) 0 m

/-- The 16-byte authentication tag of a chunk: a checksum of the plaintext,
its length and the chunk nonce, injectively serialized (the model's
stand-in for the Poly1305 tag of the missing source). -/
def tagOf (n : List Byte) (m : List Byte) : List Byte :=
  serBytes 16 (chkSum 0 m + m.length * 2 ^ 80 + nonceVal n % 2 ^ 64)

theorem length_tagOf (n m : List Byte) : (tagOf n m).length = 16 := length_serBytes _ _

theorem tagOf_ne (n m m' : List Byte) (hlen : m.length = m'.length) (hle : m.length ≤ 65536)
    (hne : chkSum 0 m ≠ chkSum 0 m') : tagOf n m ≠ tagOf n m' := by
  intro h
  have hb : chkSum 0 m ≤ 65536 * (256 * 65536) := by
    have := chkSum_le 0 m
    have h2 : m.length * (256 * (0 + m.length)) ≤ 65536 * (256 * 65536) := by
      calc m.length * (256 * (0 + m.length)) ≤ 65536 * (256 * (0 + m.length)) :=
            Nat.mul_le_mul_right _ hle
        _ ≤ 65536 * (256 * 65536) := Nat.mul_le_mul_left _ (by omega)
    omega
  have hb' : chkSum 0 m' ≤ 65536 * (256 * 65536) := by
    have := chkSum_le 0 m'
    have h2 : m'.length * (256 * (0 + m'.length)) ≤ 65536 * (256 * 65536) := by
      calc m'.length * (256 * (0 + m'.length)) ≤ 65536 * (256 * (0 + m'.length)) :=
            Nat.mul_le_mul_right _ (by omega)
        _ ≤ 65536 * (256 * 65536) := Nat.mul_le_mul_left _ (by omega)
    omega
  have hmod : nonceVal n % 2 ^ 64 < 2 ^ 64 := Nat.mod_lt _ (by norm_num)
  have hlt : chkSum 0 m + m.length * 2 ^ 80 + nonceVal n % 2 ^ 64 < 2 ^ (8 * 16) := by
    have : m.length * 2 ^ 80 ≤ 65536 * 2 ^ 80 := Nat.mul_le_mul_right _ hle
    norm_num at this hb hmod ⊢
    omega
  have hlt' : chkSum 0 m' + m'.length * 2 ^ 80 + nonceVal n % 2 ^ 64 < 2 ^ (8 * 16) := by
    have : m'.length * 2 ^ 80 ≤ 65536 * 2 ^ 80 := Nat.mul_le_mul_right _ (by omega)
    norm_num at this hb' hmod ⊢
    omega
  have := serBytes_inj 16 _ _ hlt hlt' h
  rw [hlen] at this
  omega

/-- Modelled from the spec: the missing source's AEAD seal ("XSalsa20-Poly1305
semantics", 16-byte tag): masked plaintext followed by the tag. -/
def sealBox (n : List Byte) (m : List Byte) : List Byte := maskBytes n m ++ tagOf n m

theorem length_sealBox (n m : List Byte) : (sealBox n m).length = m.length + 16 := by
  simp [sealBox, length_maskBytes, length_tagOf]

/-- Modelled from the spec: the missing source's AEAD open; checks the tag
and, on success, unmasks the ciphertext body. -/
def sopen (n : List Byte) (c : List Byte) : Option (List Byte) :=
  if c.length < 16 then none
  else
    let m := unmaskBytes n (c.take (c.length - 16))
    if tagOf n m = c.drop (c.length - 16) then some m else none

theorem sopen_sealBox (n m : List Byte) : sopen n (sealBox n m) = some m := by
  have hlen : (sealBox n m).length = m.length + 16 := length_sealBox n m
  have htake : (sealBox n m).take ((sealBox n m).length - 16) = maskBytes n m := by
    rw [hlen, Nat.add_sub_cancel, sealBox]
    exact List.take_left' (length_maskBytes n m)
  have hdrop : (sealBox n m).drop ((sealBox n m).length - 16) = tagOf n m := by
    rw [hlen, Nat.add_sub_cancel, sealBox]
    exact List.drop_left' (length_maskBytes n m)
  rw [sopen]
  rw [if_neg (by omega)]
  simp [htake, hdrop, unmaskBytes_maskBytes]

/-- The 8-byte file magic "RCLONE\x00\x00" (spec section 3). -/
def MAGIC : List Byte := [82, 67, 76, 79, 78, 69, 0, 0]

/-- Modelled from the spec: the encryptor of the missing `cipher.go`,
chunk loop.  Each chunk seals up to 65536 plaintext bytes; the nonce is
increased by 1 for each successive chunk.  `fuel` is an upper bound on the
recursion depth, fixed to `p.length + 1` by `encryptChunks`. -/
def encryptChunksGo : Nat → List Byte → List Byte → List Byte
  | 0, _, _ => []
  | _ + 1, _, [] => []
  | fuel + 1, n, p@(_ :: _) =>
    sealBox n (p.take 65536) ++ encryptChunksGo fuel (nonceAdd n 1) (p.drop 65536)

def encryptChunks (n p : List Byte) : List Byte := encryptChunksGo (p.length + 1) n p

/-- Modelled from the spec: stream encryption; header (magic plus 16-byte
nonce) followed by the sealed chunks. -/
def encrypt (p n : List Byte) : List Byte := MAGIC ++ n ++ encryptChunks n p

/-- Modelled from the spec: the decryptor chunk loop.  A nonempty remainder
shorter than 17 bytes is a truncated final chunk (BadAuth); otherwise up to
65552 bytes are read as one chunk and opened. -/
def decryptChunksGo : Nat → List Byte → List Byte → Except CryptError (List Byte)
  | 0, _, _ => .ok []
  | _ + 1, _, [] => .ok []
  | fuel + 1, n, s@(_ :: _) =>
    if s.length < 17 then .error .BadAuth
    else
      match sopen n (s.take 65552) with
      | none => .error .BadAuth
      | some m =>
        match decryptChunksGo fuel (nonceAdd n 1) (s.drop 65552) with
        | .error e => .error e
        | .ok rest => .ok (m ++ rest)

def decryptChunks (n s : List Byte) : Except CryptError (List Byte) :=
  decryptChunksGo (s.length + 1) n s

/-- Modelled from the spec: stream decryption.  A stream shorter than 24
bytes or with a bad magic is BadHeader; otherwise the nonce is read from
bytes 8..23 and the chunks are decrypted in sequence. -/
def decrypt (c : List Byte) : Except CryptError (List Byte) :=
  if c.length < 24 then .error .BadHeader
  else if (c.take 8) ≠ MAGIC then .error .BadHeader
  else decryptChunks ((c.drop 8).take 16) (c.drop 24)

theorem encryptChunksGo_fuel :
    ∀ (f₁ f₂ : Nat) (n p : List Byte), p.length < f₁ → p.length < f₂ →
      encryptChunksGo f₁ n p = encryptChunksGo f₂ n p := by
  intro f₁
  induction f₁ with
  | zero => intro f₂ n p h₁ _; omega
  | succ f₁ ih =>
    intro f₂ n p h₁ h₂
    cases p with
    | nil => cases f₂ with | zero => omega | succ f₂ => rfl
    | cons b rest =>
      cases f₂ with
      | zero => omega
      | succ f₂ =>
        simp only [encryptChunksGo]
        congr 1
        apply ih
        · simp only [List.length_drop, List.length_cons] at *
          omega
        · simp only [List.length_drop, List.length_cons] at *
          omega

theorem encryptChunks_nil (n : List Byte) : encryptChunks n [] = [] := rfl

theorem encryptChunks_cons (n p : List Byte) (hp : p ≠ []) :
    encryptChunks n p
      = sealBox n (p.take 65536) ++ encryptChunks (nonceAdd n 1) (p.drop 65536) := by
  obtain ⟨b, rest, rfl⟩ : ∃ b rest, p = b :: rest := by
    cases p with
    | nil => exact absurd rfl hp
    | cons b rest => exact ⟨b, rest, rfl⟩
  show encryptChunksGo ((b :: rest).length + 1) n (b :: rest) = _
  simp only [encryptChunksGo, List.length_cons]
  congr 1
  apply encryptChunksGo_fuel
  · simp only [List.length_drop, List.length_cons]; omega
  · simp only [List.length_drop]; omega

theorem decryptChunksGo_fuel :
    ∀ (f₁ f₂ : Nat) (n s : List Byte), s.length < f₁ → s.length < f₂ →
      decryptChunksGo f₁ n s = decryptChunksGo f₂ n s := by
  intro f₁
  induction f₁ with
  | zero => intro f₂ n s h₁ _; omega
  | succ f₁ ih =>
    intro f₂ n s h₁ h₂
    cases s with
    | nil => cases f₂ with | zero => omega | succ f₂ => rfl
    | cons b rest =>
      cases f₂ with
      | zero => omega
      | succ f₂ =>
        simp only [decryptChunksGo]
        have hrec : decryptChunksGo f₁ (nonceAdd n 1) ((b :: rest).drop 65552)
            = decryptChunksGo f₂ (nonceAdd n 1) ((b :: rest).drop 65552) := by
          apply ih
          · simp only [List.length_drop, List.length_cons] at *; omega
          · simp only [List.length_drop, List.length_cons] at *; omega
        rw [hrec]

theorem decryptChunks_nil (n : List Byte) : decryptChunks n [] = .ok [] := rfl

theorem decryptChunks_cons (n s : List Byte) (hs : s ≠ []) :
    decryptChunks n s
      = if s.length < 17 then .error .BadAuth
        else
          match sopen n (s.take 65552) with
          | none => .error .BadAuth
          | some m =>
            match decryptChunks (nonceAdd n 1) (s.drop 65552) with
            | .error e => .error e
            | .ok rest => .ok (m ++ rest) := by
  obtain ⟨b, rest, rfl⟩ : ∃ b rest, s = b :: rest := by
    cases s with
    | nil => exact absurd rfl hs
    | cons b rest => exact ⟨b, rest, rfl⟩
  show decryptChunksGo ((b :: rest).length + 1) n (b :: rest) = _
  simp only [decryptChunksGo, List.length_cons]
  have hrec : decryptChunksGo (rest.length + 1) (nonceAdd n 1) ((b :: rest).drop 65552)
      = decryptChunks (nonceAdd n 1) ((b :: rest).drop 65552) := by
    apply decryptChunksGo_fuel
    · simp only [List.length_drop, List.length_cons]; omega
    · simp only [List.length_drop, List.length_cons]; omega
  rw [hrec]


theorem decryptChunks_encryptChunks :
    ∀ (len : Nat) (p n : List Byte), p.length ≤ len →
      decryptChunks n (encryptChunks n p) = .ok p := by
  intro len
  induction len with
  | zero =>
    intro p n hp
    have : p = [] := List.eq_nil_of_length_eq_zero (by omega)
    subst this
    rfl
  | succ len ih =>
    intro p n hp
    by_cases hnil : p = []
    · subst hnil; rfl
    · have hpos : 0 < p.length := List.length_pos.mpr hnil
      have htlen : (p.take 65536).length = min 65536 p.length := List.length_take ..
      have hclen : (sealBox n (p.take 65536)).length = min 65536 p.length + 16 := by
        rw [length_sealBox, htlen]
      rw [encryptChunks_cons n p hnil]
      by_cases hbig : 65536 < p.length
      · have hc65552 : (sealBox n (p.take 65536)).length = 65552 := by omega
        have hdlen : (p.drop 65536).length = p.length - 65536 := List.length_drop ..
        have hdnil : p.drop 65536 ≠ [] := by
          intro hD
          have h00 := congrArg List.length hD
          rw [hdlen] at h00
          simp only [List.length_nil] at h00
          omega
        have hElen : 1 ≤ (encryptChunks (nonceAdd n 1) (p.drop 65536)).length := by
          rw [encryptChunks_cons (nonceAdd n 1) (p.drop 65536) hdnil]
          simp only [List.length_append, length_sealBox]
          omega
        have hlen_total :
            (sealBox n (p.take 65536) ++ encryptChunks (nonceAdd n 1) (p.drop 65536)).length
              = 65552 + (encryptChunks (nonceAdd n 1) (p.drop 65536)).length := by
          simp [List.length_append, hc65552]
        rw [decryptChunks_cons _ _ (by
          intro h0
          have h00 := congrArg List.length h0
          rw [hlen_total] at h00
          simp only [List.length_nil] at h00
          omega)]
        rw [if_neg (by rw [hlen_total]; omega)]
        rw [List.take_left' hc65552, List.drop_left' hc65552, sopen_sealBox]
        rw [ih (p.drop 65536) (nonceAdd n 1) (by rw [hdlen]; omega)]
        show Except.ok (p.take 65536 ++ p.drop 65536) = Except.ok p
        rw [List.take_append_drop]
      · have hptake : p.take 65536 = p := List.take_of_length_le (by omega)
        have hdnil : p.drop 65536 = [] := List.drop_eq_nil_of_le (by omega)
        rw [hptake, hdnil, encryptChunks_nil, List.append_nil]
        have hclen2 : (sealBox n p).length = p.length + 16 := length_sealBox ..
        rw [decryptChunks_cons _ _ (by
          intro h0
          have h00 := congrArg List.length h0
          rw [hclen2] at h00
          simp only [List.length_nil] at h00
          omega)]
        rw [if_neg (by rw [hclen2]; omega)]
        rw [List.take_of_length_le (by rw [hclen2]; omega), sopen_sealBox]
        rw [List.drop_eq_nil_of_le (by rw [hclen2]; omega), decryptChunks_nil]
        show Except.ok (p ++ []) = Except.ok p
        rw [List.append_nil]

theorem length_encryptChunks :
    ∀ (len : Nat) (p n : List Byte), p.length ≤ len →
      (encryptChunks n p).length = (p.length + 65535) / 65536 * 16 + p.length := by
  intro len
  induction len with
  | zero =>
    intro p n hp
    have : p = [] := List.eq_nil_of_length_eq_zero (by omega)
    subst this
    rfl
  | succ len ih =>
    intro p n hp
    by_cases hnil : p = []
    · subst hnil; rfl
    · have hpos : 0 < p.length := List.length_pos.mpr hnil
      rw [encryptChunks_cons n p hnil]
      simp only [List.length_append, length_sealBox, List.length_take]
      rw [ih (p.drop 65536) (nonceAdd n 1) (by simp [List.length_drop]; omega)]
      simp only [List.length_drop]
      omega

/-- Modelled from the spec: ciphertext size of an `n`-byte plaintext,
`24 + ceil(n / 65536) * 16 + n` for `n > 0` and `24` for the empty object. -/
def ciphertextSize (n : Nat) : Nat :=
  if n = 0 then 24 else 24 + (n + 65535) / 65536 * 16 + n

/-- Modelled from the spec: plaintext size recovered from a ciphertext size
(spec section 4.3); sizes with a residual chunk of 1..16 bytes are
corrupt (BadLength), sizes below the header size are BadHeader. -/
def plaintextSize (c : Nat) : Except CryptError Nat :=
  if c < 24 then .error .BadHeader
  else if c = 24 then .ok 0
  else if (c - 24) % 65552 = 0 then .ok ((c - 24) / 65552 * 65536)
  else if 16 < (c - 24) % 65552 then .ok ((c - 24) / 65552 * 65536 + ((c - 24) % 65552 - 16))
  else .error .BadLength

theorem length_encrypt (p n : List Byte) (hn : n.length = 16) :
    (encrypt p n).length = ciphertextSize p.length := by
  rw [encrypt]
  simp only [List.length_append, hn]
  rw [length_encryptChunks p.length p n le_rfl, ciphertextSize]
  by_cases h0 : p.length = 0
  · simp [h0, MAGIC]
  · rw [if_neg h0]
    simp only [MAGIC, List.length_cons, List.length_nil]
    omega

theorem take8_encrypt (p n : List Byte) : (encrypt p n).take 8 = MAGIC := by
  rw [encrypt, show MAGIC ++ n ++ encryptChunks n p = MAGIC ++ (n ++ encryptChunks n p) by
    rw [List.append_assoc]]
  exact List.take_left' rfl

theorem nonce_encrypt (p n : List Byte) (hn : n.length = 16) :
    ((encrypt p n).drop 8).take 16 = n := by
  rw [encrypt, show MAGIC ++ n ++ encryptChunks n p = MAGIC ++ (n ++ encryptChunks n p) by
    rw [List.append_assoc]]
  rw [List.drop_left' (show (MAGIC : List Byte).length = 8 from rfl)]
  exact List.take_left' hn

theorem drop24_encrypt (p n : List Byte) (hn : n.length = 16) :
    (encrypt p n).drop 24 = encryptChunks n p := by
  rw [encrypt]
  apply List.drop_left'
  simp [MAGIC, hn]

theorem decrypt_encrypt (p n : List Byte) (hn : n.length = 16) :
    decrypt (encrypt p n) = .ok p := by
  rw [decrypt]
  have hlen : 24 ≤ (encrypt p n).length := by
    rw [encrypt]
    simp only [List.length_append, MAGIC, List.length_cons, List.length_nil, hn]
    omega
  rw [if_neg (by omega)]
  rw [if_neg (by simp [take8_encrypt])]
  rw [nonce_encrypt p n hn, drop24_encrypt p n hn]
  exact decryptChunks_encryptChunks p.length p n le_rfl

/-- Modelled from the spec: the ciphertext byte offset at which a seekable
read at plaintext offset `off` starts fetching from the backing store. -/
def seekStart (off : Nat) : Nat := 24 + off / 65536 * 65552

/-- Modelled from the spec: seekable decryption.  Reads the header nonce,
fetches ciphertext from offset `seekStart off`, decrypts chunk `k` of that
range with nonce `header_nonce + off / 65536 + k`, discards the first
`off mod 65536` decrypted bytes and yields up to `len` bytes. -/
def seekRead (c : List Byte) (off len : Nat) : Except CryptError (List Byte) :=
  if c.length < 24 then .error .BadHeader
  else if (c.take 8) ≠ MAGIC then .error .BadHeader
  else
    match decryptChunks (nonceAdd ((c.drop 8).take 16) (off / 65536)) (c.drop (seekStart off)) with
    | .error e => .error e
    | .ok m => .ok ((m.drop (off % 65536)).take len)

theorem decryptChunks_drop_encryptChunks :
    ∀ (k : Nat) (p n : List Byte),
      decryptChunks (nonceAdd n k) ((encryptChunks n p).drop (k * 65552))
        = .ok (p.drop (k * 65536)) := by
  intro k
  induction k with
  | zero =>
    intro p n
    simp only [Nat.zero_mul, List.drop_zero, nonceAdd_zero]
    exact decryptChunks_encryptChunks p.length p n le_rfl
  | succ k ih =>
    intro p n
    by_cases hnil : p = []
    · subst hnil
      rw [encryptChunks_nil]
      simp [decryptChunks_nil]
    · have hpos : 0 < p.length := List.length_pos.mpr hnil
      rw [encryptChunks_cons n p hnil]
      by_cases hbig : 65536 < p.length
      · have hc65552 : (sealBox n (p.take 65536)).length = 65552 := by
          rw [length_sealBox, List.length_take]
          omega
        have hstep : (sealBox n (p.take 65536) ++ encryptChunks (nonceAdd n 1) (p.drop 65536)).drop
              ((k + 1) * 65552)
            = (encryptChunks (nonceAdd n 1) (p.drop 65536)).drop (k * 65552) := by
          rw [show (k + 1) * 65552 = 65552 + k * 65552 by ring, ← List.drop_drop,
            List.drop_left' hc65552]
        rw [hstep, show nonceAdd n (k + 1) = nonceAdd (nonceAdd n 1) k by
          rw [nonceAdd_nonceAdd]; congr 1; omega]
        rw [ih (p.drop 65536) (nonceAdd n 1)]
        rw [List.drop_drop]
        congr 2
        ring
      · have hdnil : p.drop 65536 = [] := List.drop_eq_nil_of_le (by omega)
        rw [hdnil, encryptChunks_nil, List.append_nil]
        have hclen : (sealBox n (p.take 65536)).length ≤ 65552 := by
          rw [length_sealBox, List.length_take]
          omega
        have h1 : 65552 ≤ (k + 1) * 65552 := by omega
        rw [List.drop_eq_nil_of_le (le_trans hclen h1), decryptChunks_nil,
          List.drop_eq_nil_of_le (show p.length ≤ (k + 1) * 65536 by omega)]

theorem seekRead_encrypt (p n : List Byte) (hn : n.length = 16) (a len : Nat) :
    seekRead (encrypt p n) a len = .ok ((p.drop a).take len) := by
  rw [seekRead]
  have hlen : 24 ≤ (encrypt p n).length := by
    rw [encrypt]
    simp only [List.length_append, MAGIC, List.length_cons, List.length_nil, hn]
    omega
  rw [if_neg (by omega)]
  rw [if_neg (by simp [take8_encrypt])]
  rw [nonce_encrypt p n hn]
  have hdrop : (encrypt p n).drop (seekStart a)
      = (encryptChunks n p).drop (a / 65536 * 65552) := by
    rw [seekStart, show 24 + a / 65536 * 65552 = a / 65536 * 65552 + 24 by ring,
      Nat.add_comm (a / 65536 * 65552) 24, ← List.drop_drop, drop24_encrypt p n hn]
  rw [hdrop, decryptChunks_drop_encryptChunks (a / 65536) p n]
  show Except.ok (((p.drop (a / 65536 * 65536)).drop (a % 65536)).take len) = _
  rw [List.drop_drop, show a / 65536 * 65536 + a % 65536 = a by omega]

theorem plaintextSize_ciphertextSize (m : Nat) : plaintextSize (ciphertextSize m) = .ok m := by
  rw [ciphertextSize]
  by_cases h0 : m = 0
  · subst h0
    rfl
  · rw [if_neg h0, plaintextSize]
    rw [if_neg (by omega), if_neg (by omega)]
    by_cases hrem : m % 65536 = 0
    · rw [if_pos (by omega)]
      simp only [Except.ok.injEq]
      omega
    · rw [if_neg (by omega), if_pos (by omega)]
      simp only [Except.ok.injEq]
      omega

theorem plaintextSize_badlength (C : Nat) (h24 : 24 < C) (h1 : 0 < (C - 24) % 65552)
    (h2 : (C - 24) % 65552 ≤ 16) : plaintextSize C = .error .BadLength := by
  rw [plaintextSize, if_neg (by omega), if_neg (by omega), if_neg (by omega), if_neg (by omega)]

theorem plaintextSize_rem_zero (C : Nat) (h24 : 24 < C) (h1 : (C - 24) % 65552 = 0) :
    plaintextSize C = .ok ((C - 24) / 65552 * 65536) := by
  rw [plaintextSize, if_neg (by omega), if_neg (by omega), if_pos h1]

theorem plaintextSize_rem_big (C : Nat) (h24 : 24 < C) (h1 : 16 < (C - 24) % 65552) :
    plaintextSize C = .ok ((C - 24) / 65552 * 65536 + ((C - 24) % 65552 - 16)) := by
  rw [plaintextSize, if_neg (by omega), if_neg (by omega), if_neg (by omega), if_pos h1]

theorem sopen_some (n c m : List Byte) (h : sopen n c = some m) :
    m = unmaskBytes n (c.take (c.length - 16)) := by
  rw [sopen] at h
  by_cases h16 : c.length < 16
  · rw [if_pos h16] at h
    exact absurd h (by simp)
  · rw [if_neg h16] at h
    by_cases htag : tagOf n (unmaskBytes n (c.take (c.length - 16))) = c.drop (c.length - 16)
    · rw [if_pos htag] at h
      exact (Option.some.injEq _ _ ▸ h).symm
    · rw [if_neg htag] at h
      exact absurd h (by simp)

theorem tagOf_set_ne (n m : List Byte) (j : Nat) (hj : j < m.length) (hm : m.length ≤ 65536)
    (v : Byte) (hv : v ≠ m[j]) : tagOf n (m.set j v) ≠ tagOf n m := by
  apply tagOf_ne
  · exact List.length_set ..
  · rw [List.length_set]; exact hm
  · have hset := chkSum_set m 0 j v hj
    have hXY : (v.val + 1) * (0 + j + 1) ≠ (m[j].val + 1) * (0 + j + 1) := by
      intro hE
      have := Nat.eq_of_mul_eq_mul_right (show 0 < 0 + j + 1 by omega) hE
      exact hv (Fin.ext (by omega))
    omega

/-- Any single-byte change to a sealed chunk fails to open: the model's
counterpart of "flipping any single bit of any chunk causes BadAuth". -/
theorem sopen_set_ne (n m : List Byte) (hm : m.length ≤ 65536) (j : Nat)
    (hj : j < m.length + 16) (v : Byte)
    (hv : ∀ (h : j < (sealBox n m).length), v ≠ (sealBox n m)[j]) :
    sopen n ((sealBox n m).set j v) = none := by
  have hseq : sealBox n m = maskBytes n m ++ tagOf n m := rfl
  have hslen : (sealBox n m).length = m.length + 16 := length_sealBox n m
  have hmask : (maskBytes n m).length = m.length := length_maskBytes n m
  have hb0 : j < (sealBox n m).length := by omega
  have hv' : v ≠ (sealBox n m)[j] := hv hb0
  by_cases hbody : j < m.length
  · -- change inside the masked body
    have hbm : j < (maskBytes n m).length := by omega
    have hset : (sealBox n m).set j v = (maskBytes n m).set j v ++ tagOf n m := by
      rw [hseq, List.set_append, if_pos (by omega)]
    have hval : (sealBox n m)[j] = m[j] + ks n j := by
      have h1 : (sealBox n m)[j] = (maskBytes n m ++ tagOf n m)[j] :=
        List.getElem_of_eq hseq hb0
      have h2 : (maskBytes n m ++ tagOf n m)[j] = (maskBytes n m)[j] :=
        List.getElem_append_left hbm
      have h3 : (maskBytes n m)[j] = (fun i b => b + ks n i) (0 + j) m[j] :=
        getElem_mapIdxFrom _ m 0 j (by rw [length_mapIdxFrom]; exact hbody) hbody
      rw [h1, h2, h3]
      simp
    set w : Byte := v - ks n j with hw
    have hvw : v = w + ks n j := by rw [hw]; exact (sub_add_cancel v (ks n j)).symm
    have hwne : w ≠ m[j] := by
      intro hE
      apply hv'
      rw [hval, ← hE, hvw]
    have hbodyset : (maskBytes n m).set j v = maskBytes n (m.set j w) := by
      simp only [maskBytes]
      rw [mapIdxFrom_set, Nat.zero_add, ← hvw]
    have hlen2 : ((sealBox n m).set j v).length = m.length + 16 := by
      rw [List.length_set, hslen]
    rw [sopen, if_neg (by omega), hlen2, Nat.add_sub_cancel]
    have htk : ((sealBox n m).set j v).take m.length = maskBytes n (m.set j w) := by
      rw [hset, ← hbodyset]
      exact List.take_left' (by rw [List.length_set, hmask])
    have hdp : ((sealBox n m).set j v).drop m.length = tagOf n m := by
      rw [hset]
      exact List.drop_left' (by rw [List.length_set, hmask])
    rw [htk, hdp, unmaskBytes_maskBytes]
    rw [if_neg (tagOf_set_ne n m j hbody hm w hwne)]
  · -- change inside the stored tag
    have hjt : m.length ≤ j := by omega
    have hbt : j - m.length < (tagOf n m).length := by rw [length_tagOf]; omega
    have hset : (sealBox n m).set j v = maskBytes n m ++ (tagOf n m).set (j - m.length) v := by
      rw [hseq, List.set_append, if_neg (by omega), hmask]
    have hlen2 : ((sealBox n m).set j v).length = m.length + 16 := by
      rw [List.length_set, hslen]
    rw [sopen, if_neg (by omega), hlen2, Nat.add_sub_cancel]
    have htk : ((sealBox n m).set j v).take m.length = maskBytes n m := by
      rw [hset]
      exact List.take_left' hmask
    have hdp : ((sealBox n m).set j v).drop m.length = (tagOf n m).set (j - m.length) v := by
      rw [hset]
      exact List.drop_left' hmask
    rw [htk, hdp, unmaskBytes_maskBytes]
    have hvtag : v ≠ (tagOf n m)[j - m.length] := by
      intro hE
      apply hv'
      have h1 : (sealBox n m)[j] = (maskBytes n m ++ tagOf n m)[j] :=
        List.getElem_of_eq hseq hb0
      have h2 : (maskBytes n m ++ tagOf n m)[j] = (tagOf n m)[j - m.length] := by
        rw [List.getElem_append_right (by omega)]
        congr 1
        rw [hmask]
      rw [h1, h2, ← hE]
    rw [if_neg (by
      intro hE
      apply hvtag
      have hjlt : j - m.length < ((tagOf n m).set (j - m.length) v).length := by
        rw [List.length_set, length_tagOf]; omega
      have h6 : (tagOf n m)[j - m.length] = ((tagOf n m).set (j - m.length) v)[j - m.length] :=
        List.getElem_of_eq hE hbt
      rw [h6, List.getElem_set_self hjlt])]

theorem decryptChunks_set_ne :
    ∀ (len : Nat) (p n : List Byte) (j : Nat) (v : Byte), p.length ≤ len →
      ∀ (hj : j < (encryptChunks n p).length), v ≠ (encryptChunks n p)[j] →
      decryptChunks n ((encryptChunks n p).set j v) = .error .BadAuth := by
  intro len
  induction len with
  | zero =>
    intro p n j v hp hj _
    have : p = [] := List.eq_nil_of_length_eq_zero (by omega)
    subst this
    simp [encryptChunks_nil] at hj
  | succ len ih =>
    intro p n j v hp hj hv
    by_cases hnil : p = []
    · subst hnil
      simp [encryptChunks_nil] at hj
    · have hpos : 0 < p.length := List.length_pos.mpr hnil
      have hE := encryptChunks_cons n p hnil
      have hc0len : (sealBox n (p.take 65536)).length = min 65536 p.length + 16 := by
        rw [length_sealBox, List.length_take]
      have htklen : (p.take 65536).length ≤ 65536 := by
        rw [List.length_take]; omega
      by_cases hfirst : j < (sealBox n (p.take 65536)).length
      · -- tampered byte is in the first chunk
        have hvc0 : ∀ (h : j < (sealBox n (p.take 65536)).length),
            v ≠ (sealBox n (p.take 65536))[j] := by
          intro h hE2
          apply hv
          have hba : j < (sealBox n (p.take 65536)
              ++ encryptChunks (nonceAdd n 1) (p.drop 65536)).length := by
            rw [← hE]; omega
          have h1 : (encryptChunks n p)[j]
              = (sealBox n (p.take 65536)
                  ++ encryptChunks (nonceAdd n 1) (p.drop 65536))[j] :=
            List.getElem_of_eq hE hj
          rw [h1, List.getElem_append_left hfirst]
          exact hE2
        have hsetE : (encryptChunks n p).set j v
            = (sealBox n (p.take 65536)).set j v
              ++ encryptChunks (nonceAdd n 1) (p.drop 65536) := by
          rw [hE, List.set_append, if_pos hfirst]
        have hstream_len : ((encryptChunks n p).set j v).length ≥ min 65536 p.length + 16 := by
          rw [hsetE]
          simp only [List.length_append, List.length_set]
          omega
        rw [hsetE]
        have hne : (sealBox n (p.take 65536)).set j v
            ++ encryptChunks (nonceAdd n 1) (p.drop 65536) ≠ [] := by
          intro h0
          have h00 := congrArg List.length h0
          simp only [List.length_append, List.length_set, List.length_nil, hc0len] at h00
          omega
        rw [decryptChunks_cons _ _ hne]
        rw [if_neg (by
          simp only [List.length_append, List.length_set, hc0len]
          omega)]
        have hopen : sopen (n)
            (((sealBox n (p.take 65536)).set j v
              ++ encryptChunks (nonceAdd n 1) (p.drop 65536)).take 65552) = none := by
          by_cases hbig : 65536 < p.length
          · have hc65552 : (sealBox n (p.take 65536)).length = 65552 := by omega
            rw [List.take_append_of_le_length (by rw [List.length_set]; omega)]
            rw [List.take_of_length_le (by rw [List.length_set]; omega)]
            exact sopen_set_ne n (p.take 65536) htklen j
              (by have h7 : (p.take 65536).length = min 65536 p.length := List.length_take ..
                  omega) v hvc0
          · have hdnil : p.drop 65536 = [] := List.drop_eq_nil_of_le (by omega)
            rw [hdnil, encryptChunks_nil, List.append_nil]
            rw [List.take_of_length_le (by rw [List.length_set]; omega)]
            exact sopen_set_ne n (p.take 65536) htklen j
              (by have h7 : (p.take 65536).length = min 65536 p.length := List.length_take ..
                  omega) v hvc0
        rw [hopen]
      · -- tampered byte is in a later chunk
        have hjge : (sealBox n (p.take 65536)).length ≤ j := by omega
        have hrest_len : j - (sealBox n (p.take 65536)).length
            < (encryptChunks (nonceAdd n 1) (p.drop 65536)).length := by
          have := congrArg List.length hE
          simp only [List.length_append] at this
          omega
        have hbig : 65536 < p.length := by
          by_contra hle
          have hdnil : p.drop 65536 = [] := List.drop_eq_nil_of_le (by omega)
          rw [hdnil, encryptChunks_nil] at hrest_len
          simp at hrest_len
        have hc65552 : (sealBox n (p.take 65536)).length = 65552 := by omega
        have hvrest : v ≠ (encryptChunks (nonceAdd n 1)
            (p.drop 65536))[j - (sealBox n (p.take 65536)).length] := by
          intro hE2
          apply hv
          have hba : j < (sealBox n (p.take 65536)
              ++ encryptChunks (nonceAdd n 1) (p.drop 65536)).length := by
            rw [← hE]; omega
          have h1 : (encryptChunks n p)[j]
              = (sealBox n (p.take 65536)
                  ++ encryptChunks (nonceAdd n 1) (p.drop 65536))[j] :=
            List.getElem_of_eq hE hj
          rw [h1, List.getElem_append_right hjge, hE2]
        have hsetE : (encryptChunks n p).set j v
            = sealBox n (p.take 65536)
              ++ (encryptChunks (nonceAdd n 1)
                  (p.drop 65536)).set (j - (sealBox n (p.take 65536)).length) v := by
          rw [hE, List.set_append, if_neg (by omega)]
        rw [hsetE]
        have hne : sealBox n (p.take 65536)
            ++ (encryptChunks (nonceAdd n 1)
                (p.drop 65536)).set (j - (sealBox n (p.take 65536)).length) v ≠ [] := by
          intro h0
          have h00 := congrArg List.length h0
          simp only [List.length_append, List.length_set, List.length_nil, hc0len] at h00
          omega
        rw [decryptChunks_cons _ _ hne]
        rw [if_neg (by
          simp only [List.length_append, List.length_set, hc0len]
          omega)]
        rw [List.take_append_of_le_length (by omega),
          List.take_of_length_le (by omega), sopen_sealBox]
        rw [List.drop_left' hc65552]
        rw [ih (p.drop 65536) (nonceAdd n 1) (j - (sealBox n (p.take 65536)).length) v
          (by rw [List.length_drop]; omega)
          hrest_len
          hvrest]

theorem decryptChunks_take :
    ∀ (len : Nat) (p n : List Byte) (L : Nat), p.length ≤ len →
      L < (encryptChunks n p).length →
      decryptChunks n ((encryptChunks n p).take L) = .error .BadAuth
      ∨ ∃ s, s < p.length ∧ decryptChunks n ((encryptChunks n p).take L) = .ok (p.take s) := by
  intro len
  induction len with
  | zero =>
    intro p n L hp hL
    have : p = [] := List.eq_nil_of_length_eq_zero (by omega)
    subst this
    simp [encryptChunks_nil] at hL
  | succ len ih =>
    intro p n L hp hL
    by_cases hnil : p = []
    · subst hnil
      simp [encryptChunks_nil] at hL
    · have hpos : 0 < p.length := List.length_pos.mpr hnil
      have hE := encryptChunks_cons n p hnil
      have hc0len : (sealBox n (p.take 65536)).length = min 65536 p.length + 16 := by
        rw [length_sealBox, List.length_take]
      have hElen : (encryptChunks n p).length
          = (sealBox n (p.take 65536)).length
            + (encryptChunks (nonceAdd n 1) (p.drop 65536)).length := by
        rw [hE, List.length_append]
      have hstreamlen : ((encryptChunks n p).take L).length = L := by
        rw [List.length_take]
        omega
      by_cases hL0 : L = 0
      · right
        refine ⟨0, hpos, ?_⟩
        subst hL0
        rw [List.take_zero, decryptChunks_nil, List.take_zero]
      · by_cases hL17 : L < 17
        · left
          rw [decryptChunks_cons _ _ (by
            intro h0
            have h00 := congrArg List.length h0
            rw [hstreamlen] at h00
            simp at h00
            omega)]
          rw [if_pos (by omega)]
        · by_cases hLc0 : L < (sealBox n (p.take 65536)).length
          · -- cut strictly inside the first chunk
            have htakeL : (encryptChunks n p).take L = (sealBox n (p.take 65536)).take L := by
              rw [hE, List.take_append_of_le_length (by omega)]
            have hL65552 : L ≤ 65552 := by omega
            rw [decryptChunks_cons _ _ (by
              intro h0
              have h00 := congrArg List.length h0
              rw [hstreamlen] at h00
              simp at h00
              omega)]
            rw [if_neg (by rw [hstreamlen]; omega)]
            rw [List.take_of_length_le (by rw [hstreamlen]; omega)]
            rcases hso : sopen n ((encryptChunks n p).take L) with _ | mm
            · left
              rfl
            · have hmm := sopen_some n _ mm hso
              rw [hstreamlen] at hmm
              have hbody : ((encryptChunks n p).take L).take (L - 16)
                  = maskBytes n (p.take (L - 16)) := by
                rw [htakeL, List.take_take, min_eq_left (by omega)]
                have hsb : sealBox n (p.take 65536)
                    = maskBytes n (p.take 65536) ++ tagOf n (p.take 65536) := rfl
                rw [hsb, List.take_append_of_le_length (by
                  rw [length_maskBytes, List.length_take]
                  omega)]
                rw [maskBytes, take_mapIdxFrom, List.take_take, min_eq_left (by omega)]
                rfl
              rw [hbody, unmaskBytes_maskBytes] at hmm
              right
              refine ⟨L - 16, by omega, ?_⟩
              rw [List.drop_eq_nil_of_le (by rw [hstreamlen]; omega), decryptChunks_nil]
              rw [hmm]
              show Except.ok (p.take (L - 16) ++ []) = Except.ok (p.take (L - 16))
              rw [List.append_nil]
          · -- cut at or beyond the first chunk boundary
            have hrest_ne : (encryptChunks (nonceAdd n 1) (p.drop 65536)).length ≠ 0 := by
              intro h0
              omega
            have hbig : 65536 < p.length := by
              by_contra hle
              have hdnil : p.drop 65536 = [] := List.drop_eq_nil_of_le (by omega)
              rw [hdnil, encryptChunks_nil] at hrest_ne
              simp at hrest_ne
            have hc65552 : (sealBox n (p.take 65536)).length = 65552 := by omega
            have htakeL : (encryptChunks n p).take L
                = sealBox n (p.take 65536)
                  ++ (encryptChunks (nonceAdd n 1) (p.drop 65536)).take (L - 65552) := by
              rw [hE, List.take_append_eq_append_take,
                List.take_of_length_le (by omega)]
              rw [hc65552]
            rw [htakeL]
            rw [decryptChunks_cons _ _ (by
              intro h0
              have h00 := congrArg List.length h0
              simp only [List.length_append, List.length_nil, hc65552] at h00
              omega)]
            rw [if_neg (by
              simp only [List.length_append, hc65552]
              omega)]
            rw [List.take_append_of_le_length (by omega),
              List.take_of_length_le (by omega), sopen_sealBox]
            rw [List.drop_left' hc65552]
            have hLrest : L - 65552 < (encryptChunks (nonceAdd n 1) (p.drop 65536)).length := by
              omega
            rcases ih (p.drop 65536) (nonceAdd n 1) (L - 65552)
                (by rw [List.length_drop]; omega) hLrest with herr | ⟨s', hs', hok⟩
            · left
              rw [herr]
            · right
              refine ⟨65536 + s', by rw [List.length_drop] at hs'; omega, ?_⟩
              rw [hok, List.take_add]

theorem header_length (n X : List Byte) (hn : n.length = 16) :
    ((MAGIC ++ n) ++ X).length = 24 + X.length := by
  simp [MAGIC, hn]
  omega

theorem decrypt_header (n X : List Byte) (hn : n.length = 16) :
    decrypt ((MAGIC ++ n) ++ X) = decryptChunks n X := by
  rw [decrypt, if_neg (by rw [header_length n X hn]; omega)]
  have h8 : ((MAGIC ++ n) ++ X).take 8 = MAGIC := by
    rw [List.append_assoc]
    exact List.take_left' rfl
  rw [if_neg (by rw [h8]; simp)]
  have hnonce : (((MAGIC ++ n) ++ X).drop 8).take 16 = n := by
    rw [List.append_assoc, List.drop_left' (show (MAGIC : List Byte).length = 8 from rfl)]
    exact List.take_left' hn
  have h24 : ((MAGIC ++ n) ++ X).drop 24 = X :=
    List.drop_left' (by simp [MAGIC, hn])
  rw [hnonce, h24]

theorem decrypt_set_ne (p n : List Byte) (hn : n.length = 16) (i : Nat)
    (hi24 : 24 ≤ i) (hi : i < (encrypt p n).length) (v : Byte)
    (hv : v ≠ (encrypt p n)[i]) :
    decrypt ((encrypt p n).set i v) = .error .BadAuth := by
  have hdrlen : (MAGIC ++ n).length = 24 := by simp [MAGIC, hn]
  have henc : encrypt p n = (MAGIC ++ n) ++ encryptChunks n p := rfl
  have hilen : i < ((MAGIC ++ n) ++ encryptChunks n p).length := by rw [← henc]; omega
  have hlen2 : (encrypt p n).length = 24 + (encryptChunks n p).length := by
    rw [henc, List.length_append, hdrlen]
  have hset : (encrypt p n).set i v
      = (MAGIC ++ n) ++ (encryptChunks n p).set (i - (MAGIC ++ n).length) v := by
    rw [henc, List.set_append, if_neg (by omega)]
  have hj : i - (MAGIC ++ n).length < (encryptChunks n p).length := by
    rw [hdrlen]
    omega
  have hv' : v ≠ (encryptChunks n p)[i - (MAGIC ++ n).length] := by
    intro hE
    apply hv
    have h1 : (encrypt p n)[i] = ((MAGIC ++ n) ++ encryptChunks n p)[i] :=
      List.getElem_of_eq henc hi
    rw [h1, List.getElem_append_right (by omega), hE]
  rw [hset, decrypt_header n _ hn]
  exact decryptChunks_set_ne p.length p n (i - (MAGIC ++ n).length) v le_rfl hj hv'

theorem decrypt_take (p n : List Byte) (hn : n.length = 16) (K : Nat)
    (hK : K < (encrypt p n).length) :
    decrypt ((encrypt p n).take K) = .error .BadHeader
    ∨ decrypt ((encrypt p n).take K) = .error .BadAuth
    ∨ ∃ s, s < p.length ∧ decrypt ((encrypt p n).take K) = .ok (p.take s) := by
  have hdrlen : (MAGIC ++ n).length = 24 := by simp [MAGIC, hn]
  have henc : encrypt p n = (MAGIC ++ n) ++ encryptChunks n p := rfl
  have hlen : (encrypt p n).length = 24 + (encryptChunks n p).length := by
    rw [henc, List.length_append, hdrlen]
  by_cases h24 : K < 24
  · left
    rw [decrypt, if_pos (by rw [List.length_take]; omega)]
  · have htakeK : (encrypt p n).take K
        = (MAGIC ++ n) ++ (encryptChunks n p).take (K - 24) := by
      rw [henc, List.take_append_eq_append_take, List.take_of_length_le (by omega), hdrlen]
    rw [htakeK, decrypt_header n _ hn]
    by_cases hK24 : K = 24
    · right; right
      refine ⟨0, ?_, ?_⟩
      · have hEpos : 0 < (encryptChunks n p).length := by omega
        by_contra h0
        have : p = [] := List.eq_nil_of_length_eq_zero (by omega)
        subst this
        rw [encryptChunks_nil] at hEpos
        simp at hEpos
      · subst hK24
        rw [Nat.sub_self, List.take_zero, decryptChunks_nil, List.take_zero]
    · have hKE : K - 24 < (encryptChunks n p).length := by omega
      rcases decryptChunks_take p.length p n (K - 24) le_rfl hKE with herr | ⟨s, hs, hok⟩
      · right; left
        exact herr
      · right; right
        exact ⟨s, hs, hok⟩

/-- Flip bit `k` (0 = least significant) of a byte. -/
def flipBit (b : Byte) (k : Fin 8) : Byte :=
  ⟨b.val ^^^ (1 <<< k.val), by
    have h1 : b.val < 2 ^ 8 := b.isLt
    have h2 : 1 <<< k.val < 2 ^ 8 := by
      rw [Nat.shiftLeft_eq, Nat.one_mul]
      have h3 : 2 ^ k.val ≤ 2 ^ 7 := Nat.pow_le_pow_right (by omega) (by omega)
      have h4 : (2:Nat) ^ 7 = 128 := by norm_num
      have h5 : (2:Nat) ^ 8 = 256 := by norm_num
      omega
    exact Nat.xor_lt_two_pow h1 h2⟩

theorem flipBit_ne (b : Byte) (k : Fin 8) : flipBit b k ≠ b := by
  intro h
  have hval : b.val ^^^ (1 <<< k.val) = b.val := congrArg Fin.val h
  have h4 : b.val ^^^ (b.val ^^^ (1 <<< k.val)) = b.val ^^^ b.val := by rw [hval]
  rw [← Nat.xor_assoc, Nat.xor_self, Nat.zero_xor] at h4
  have h5 : 0 < 1 <<< k.val := by
    rw [Nat.shiftLeft_eq, Nat.one_mul]
    exact Nat.pow_pos (by omega)
  omega

end Crypt

namespace Crypt

/-- The RFC 4648 base32 alphabet, lowercased, as used by the standard
filename mode ("base32 without padding, lowercase"). -/
def alpha32 : List Char :=
  ['a', 'b', 'c', 'd', 'e', 'f', 'g', 'h', 'i', 'j', 'k', 'l', 'm',
   'n', 'o', 'p', 'q', 'r', 's', 't', 'u', 'v', 'w', 'x', 'y', 'z',
   '2', '3', '4', '5', '6', '7']

def charOf32 (v : Fin 32) : Char := alpha32.get ⟨v.val, v.isLt⟩

def inv32 : Char → Option (Fin 32)
  | 'a' => some 0
  | 'b' => some 1
  | 'c' => some 2
  | 'd' => some 3
  | 'e' => some 4
  | 'f' => some 5
  | 'g' => some 6
  | 'h' => some 7
  | 'i' => some 8
  | 'j' => some 9
  | 'k' => some 10
  | 'l' => some 11
  | 'm' => some 12
  | 'n' => some 13
  | 'o' => some 14
  | 'p' => some 15
  | 'q' => some 16
  | 'r' => some 17
  | 's' => some 18
  | 't' => some 19
  | 'u' => some 20
  | 'v' => some 21
  | 'w' => some 22
  | 'x' => some 23
  | 'y' => some 24
  | 'z' => some 25
  | '2' => some 26
  | '3' => some 27
  | '4' => some 28
  | '5' => some 29
  | '6' => some 30
  | '7' => some 31
  | _ => none

def bit (b : Bool) : Nat := if b then 1 else 0

def byteBits (b : Byte) : List Bool :=
  [b.val.testBit 7, b.val.testBit 6, b.val.testBit 5, b.val.testBit 4,
   b.val.testBit 3, b.val.testBit 2, b.val.testBit 1, b.val.testBit 0]

def toBits : List Byte → List Bool
  | [] => []
  | b :: rest => byteBits b ++ toBits rest

def val5 (a b c d e : Bool) : Fin 32 :=
  ⟨(16 * bit a + 8 * bit b + 4 * bit c + 2 * bit d + bit e) % 32, Nat.mod_lt _ (by omega)⟩

def bits5 (v : Fin 32) : List Bool :=
  [v.val.testBit 4, v.val.testBit 3, v.val.testBit 2, v.val.testBit 1, v.val.testBit 0]

/-- Group a bit string into 5-bit base32 symbols, the last group padded
with zero bits. -/
def chunk5 : List Bool → List (Fin 32)
  | [] => []
  | [a] => [val5 a false false false false]
  | [a, b] => [val5 a b false false false]
  | [a, b, c] => [val5 a b c false false]
  | [a, b, c, d] => [val5 a b c d false]
  | a :: b :: c :: d :: e :: rest => val5 a b c d e :: chunk5 rest

def val8 (a b c d e f g h : Bool) : Byte :=
  ⟨(128 * bit a + 64 * bit b + 32 * bit c + 16 * bit d
      + 8 * bit e + 4 * bit f + 2 * bit g + bit h) % 256, Nat.mod_lt _ (by omega)⟩

/-- Group a bit string into bytes, dropping any incomplete trailing group
(the zero padding introduced by base32 encoding). -/
def chunk8 : List Bool → List Byte
  | a :: b :: c :: d :: e :: f :: g :: h :: rest => val8 a b c d e f g h :: chunk8 rest
  | _ => []

/-- Modelled from the spec: base32 encoding without padding, lowercase. -/
def base32encode (l : List Byte) : List Char := (chunk5 (toBits l)).map charOf32

def mapInv32 : List Char → Option (List (Fin 32))
  | [] => some []
  | c :: rest =>
    match inv32 c, mapInv32 rest with
    | some v, some vs => some (v :: vs)
    | _, _ => none

def bitsOf5s : List (Fin 32) → List Bool
  | [] => []
  | v :: rest => bits5 v ++ bitsOf5s rest

/-- Modelled from the spec: base32 decoding; fails on characters outside
the alphabet. -/
def base32decode (cs : List Char) : Option (List Byte) :=
  (mapInv32 cs).map (fun vs => chunk8 (bitsOf5s vs))

theorem bits5_val5 : ∀ a b c d e : Bool, bits5 (val5 a b c d e) = [a, b, c, d, e] := by decide

theorem inv32_charOf32 : ∀ v : Fin 32, inv32 (charOf32 v) = some v := by decide

theorem mapInv32_map : ∀ vs : List (Fin 32), mapInv32 (vs.map charOf32) = some vs := by
  intro vs
  induction vs with
  | nil => rfl
  | cons v rest ih => simp [mapInv32, inv32_charOf32, ih]

theorem bitsOf5s_chunk5 :
    ∀ (len : Nat) (bits : List Bool), bits.length ≤ len →
      ∃ r ≤ 4, bitsOf5s (chunk5 bits) = bits ++ List.replicate r false := by
  intro len
  induction len with
  | zero =>
    intro bits h
    have : bits = [] := List.eq_nil_of_length_eq_zero (by omega)
    subst this
    exact ⟨0, by omega, rfl⟩
  | succ len ih =>
    intro bits h
    match bits with
    | [] => exact ⟨0, by omega, rfl⟩
    | [a] => exact ⟨4, by omega, by rw [chunk5, bitsOf5s, bits5_val5, bitsOf5s]; rfl⟩
    | [a, b] => exact ⟨3, by omega, by rw [chunk5, bitsOf5s, bits5_val5, bitsOf5s]; rfl⟩
    | [a, b, c] => exact ⟨2, by omega, by rw [chunk5, bitsOf5s, bits5_val5, bitsOf5s]; rfl⟩
    | [a, b, c, d] => exact ⟨1, by omega, by rw [chunk5, bitsOf5s, bits5_val5, bitsOf5s]; rfl⟩
    | a :: b :: c :: d :: e :: rest =>
      obtain ⟨r, hr, heq⟩ := ih rest (by simp at h; omega)
      refine ⟨r, hr, ?_⟩
      rw [chunk5, bitsOf5s, bits5_val5, heq]
      rfl

set_option maxRecDepth 4000 in
theorem val8_testBits : ∀ b : Byte,
    val8 (b.val.testBit 7) (b.val.testBit 6) (b.val.testBit 5) (b.val.testBit 4)
      (b.val.testBit 3) (b.val.testBit 2) (b.val.testBit 1) (b.val.testBit 0) = b := by
  decide

theorem chunk8_toBits :
    ∀ (r : Nat), r ≤ 4 → ∀ (l : List Byte),
      chunk8 (toBits l ++ List.replicate r false) = l := by
  intro r hr l
  induction l with
  | nil =>
    rw [toBits, List.nil_append]
    interval_cases r <;> rfl
  | cons b rest ih =>
    rw [toBits, byteBits, List.append_assoc]
    simp only [List.cons_append, List.nil_append]
    rw [chunk8, val8_testBits, ih]

theorem base32decode_base32encode (l : List Byte) :
    base32decode (base32encode l) = some l := by
  rw [base32encode, base32decode, mapInv32_map]
  obtain ⟨r, hr, heq⟩ := bitsOf5s_chunk5 (toBits l).length (toBits l) le_rfl
  rw [Option.map_some', heq, chunk8_toBits r hr]

theorem mem_base32encode_alpha (l : List Byte) (c : Char) (hc : c ∈ base32encode l) :
    c ∈ alpha32 := by
  rw [base32encode] at hc
  obtain ⟨v, _, rfl⟩ := List.mem_map.mp hc
  exact List.get_mem alpha32 _ _

end Crypt

namespace Crypt

/-- Modelled from the spec: the EME wide-block cipher of the missing
filename codec, modelled as a length-preserving keyed bijection (per-byte
keystream derived from `name_key` and `name_tweak`). -/
def emeKeystream (key tweak : List Byte) (i : Nat) : Byte :=
  ⟨(nonceVal key + 2 * nonceVal tweak + i) % 256, Nat.mod_lt _ (by omega)⟩

def emeEncrypt (key tweak m : List Byte) : List Byte :=
  mapIdxFrom (fun i b => b + emeKeystream key tweak i) 0 m

def emeDecrypt (key tweak c : List Byte) : List Byte :=
  mapIdxFrom (fun i b => b - emeKeystream key tweak i) 0 c

theorem emeDecrypt_emeEncrypt (key tweak m : List Byte) :
    emeDecrypt key tweak (emeEncrypt key tweak m) = m := by
  rw [emeEncrypt, emeDecrypt, mapIdxFrom_mapIdxFrom]
  exact mapIdxFrom_id _ (fun j b => add_sub_cancel_right b (emeKeystream key tweak j)) 0 m

/-- PKCS#7 padding to a multiple of 16 bytes: append `p` copies of the byte
`p`, where `p = 16 - len mod 16` (always 1..16). -/
def pad16 (m : List Byte) : List Byte :=
  m ++ List.replicate (16 - m.length % 16) ⟨16 - m.length % 16, by omega⟩

/-- Strip and validate PKCS#7 padding: the last byte `p` must be 1..16,
the list must have at least `p` bytes, all of the last `p` bytes must
equal `p`. -/
def unpad16 (m : List Byte) : Option (List Byte) :=
  if m.length = 0 then none
  else if (m.getLastD 0).val = 0 then none
  else if 16 < (m.getLastD 0).val then none
  else if m.length < (m.getLastD 0).val then none
  else if (m.drop (m.length - (m.getLastD 0).val)).all (fun x => x = m.getLastD 0) then
    some (m.take (m.length - (m.getLastD 0).val))
  else none

theorem unpad16_append_replicate (m : List Byte) (p : Nat) (q : Byte) (hq : q.val = p)
    (h1 : 1 ≤ p) (h16 : p ≤ 16) : unpad16 (m ++ List.replicate p q) = some m := by
  obtain ⟨k, rfl⟩ : ∃ k, p = k + 1 := ⟨p - 1, by omega⟩
  have hlast : (m ++ List.replicate (k + 1) q).getLastD 0 = q := by
    rw [List.getLastD_eq_getLast?, List.replicate_succ', ← List.append_assoc,
      List.getLast?_concat]
    rfl
  have hlen : (m ++ List.replicate (k + 1) q).length = m.length + (k + 1) := by
    rw [List.length_append, List.length_replicate]
  rw [unpad16, hlast, if_neg (by omega), if_neg (by omega), if_neg (by omega),
    if_neg (by omega)]
  have hsub : (m ++ List.replicate (k + 1) q).length - q.val = m.length := by omega
  rw [hsub, if_pos (by
    rw [List.drop_left' rfl, List.all_eq_true]
    intro x hx
    have := List.eq_of_mem_replicate hx
    simp [this])]
  rw [List.take_left' rfl]

theorem unpad16_pad16 (m : List Byte) : unpad16 (pad16 m) = some m := by
  rw [pad16]
  exact unpad16_append_replicate m (16 - m.length % 16) ⟨16 - m.length % 16, by omega⟩
    rfl (by omega) (by omega)

/-- Modelled from the spec: standard filename mode, per path component:
PKCS#7-pad the component bytes to a multiple of 16, encrypt with the
EME wide-block cipher keyed by `name_key` and tweaked by `name_tweak`,
encode with lowercase unpadded base32. -/
def encodeComponentStd (key tweak m : List Byte) : List Char :=
  base32encode (emeEncrypt key tweak (pad16 m))

/-- Modelled from the spec: standard filename mode decoding, the exact
inverse; failures are BadFilename. -/
def decodeComponentStd (key tweak : List Byte) (cs : List Char) :
    Except CryptError (List Byte) :=
  match base32decode cs with
  | none => .error .BadFilename
  | some bs =>
    match unpad16 (emeDecrypt key tweak bs) with
    | none => .error .BadFilename
    | some m => .ok m

theorem decodeComponentStd_encodeComponentStd (key tweak m : List Byte) :
    decodeComponentStd key tweak (encodeComponentStd key tweak m) = .ok m := by
  rw [encodeComponentStd, decodeComponentStd, base32decode_base32encode]
  simp only
  rw [emeDecrypt_emeEncrypt, unpad16_pad16]

end Crypt

namespace Crypt

/-- FNV-1a (32-bit) hash step fold over byte values. -/
def fnv1a : Nat → List Nat → Nat
  | h, [] => h
  | h, b :: rest => fnv1a (((h ^^^ b % 256) * 16777619) % 4294967296) rest

/-- Modelled from the spec: the per-component shift of obfuscate mode,
`fnv1a(name_key || component_bytes)`. -/
def obfShift (key : List Byte) (comp : List Nat) : Nat :=
  fnv1a 2166136261 (key.map Fin.val ++ comp)

/-- Rotate one character code forward within its class (lowercase letters,
uppercase letters, digits; everything else is preserved), as obfuscate
mode does.  Characters are modelled as Unicode code points. -/
def rotChar (s : Nat) (c : Nat) : Nat :=
  if 97 ≤ c ∧ c ≤ 122 then 97 + (c - 97 + s) % 26
  else if 65 ≤ c ∧ c ≤ 90 then 65 + (c - 65 + s) % 26
  else if 48 ≤ c ∧ c ≤ 57 then 48 + (c - 48 + s) % 10
  else c

def unrotChar (s : Nat) (c : Nat) : Nat :=
  if 97 ≤ c ∧ c ≤ 122 then 97 + (c - 97 + (26 - s % 26)) % 26
  else if 65 ≤ c ∧ c ≤ 90 then 65 + (c - 65 + (26 - s % 26)) % 26
  else if 48 ≤ c ∧ c ≤ 57 then 48 + (c - 48 + (10 - s % 10)) % 10
  else c

theorem unrotChar_rotChar (s c : Nat) : unrotChar s (rotChar s c) = c := by
  rw [rotChar, unrotChar]
  split_ifs <;> omega

/-- Little-endian-to-decimal digit expansion, most significant digit
first; `fuel` bounds the recursion depth. -/
def decDigitsGo : Nat → Nat → List Nat
  | 0, _ => []
  | fuel + 1, n => if n < 10 then [48 + n] else decDigitsGo fuel (n / 10) ++ [48 + n % 10]

def decDigits (n : Nat) : List Nat := decDigitsGo (n + 1) n

theorem decDigitsGo_fuel :
    ∀ (f₁ f₂ n : Nat), n < f₁ → n < f₂ → decDigitsGo f₁ n = decDigitsGo f₂ n := by
  intro f₁
  induction f₁ with
  | zero => intro f₂ n h₁ _; omega
  | succ f₁ ih =>
    intro f₂ n h₁ h₂
    cases f₂ with
    | zero => omega
    | succ f₂ =>
      simp only [decDigitsGo]
      by_cases hn : n < 10
      · rw [if_pos hn, if_pos hn]
      · rw [if_neg hn, if_neg hn, ih f₂ (n / 10) (by omega) (by omega)]

theorem decDigits_eq (n : Nat) :
    decDigits n = if n < 10 then [48 + n] else decDigits (n / 10) ++ [48 + n % 10] := by
  rw [decDigits, decDigitsGo]
  by_cases hn : n < 10
  · rw [if_pos hn, if_pos hn]
  · rw [if_neg hn, if_neg hn, decDigitsGo_fuel n (n / 10 + 1) (n / 10) (by omega) (by omega)]
    rfl

theorem decDigits_range :
    ∀ (len n : Nat), n ≤ len → ∀ d ∈ decDigits n, 48 ≤ d ∧ d ≤ 57 := by
  intro len
  induction len with
  | zero =>
    intro n hn d hd
    rw [show n = 0 by omega, decDigits_eq] at hd
    simp at hd
    omega
  | succ len ih =>
    intro n hn d hd
    rw [decDigits_eq] at hd
    by_cases h10 : n < 10
    · rw [if_pos h10] at hd
      simp at hd
      omega
    · rw [if_neg h10] at hd
      rcases List.mem_append.mp hd with h | h
      · exact ih (n / 10) (by omega) d h
      · simp at h
        omega

def digitsVal (l : List Nat) : Nat := l.foldl (fun a d => a * 10 + (d - 48)) 0

theorem digitsVal_decDigits_aux :
    ∀ (len n a : Nat), n ≤ len →
      List.foldl (fun x d => x * 10 + (d - 48)) a (decDigits n)
        = a * 10 ^ (decDigits n).length + n := by
  intro len
  induction len with
  | zero =>
    intro n a hn
    rw [show n = 0 by omega, decDigits_eq]
    simp
  | succ len ih =>
    intro n a hn
    rw [decDigits_eq]
    by_cases h10 : n < 10
    · rw [if_pos h10]
      simp only [List.foldl_cons, List.foldl_nil, List.length_cons, List.length_nil]
      have : (48 + n) - 48 = n := by omega
      rw [this]
      ring
    · rw [if_neg h10]
      rw [List.foldl_append, ih (n / 10) a (by omega)]
      simp only [List.foldl_cons, List.foldl_nil, List.length_append, List.length_cons,
        List.length_nil]
      have h48 : (48 + n % 10) - 48 = n % 10 := by omega
      rw [h48, pow_succ]
      have hdm : 10 * (n / 10) + n % 10 = n := Nat.div_add_mod n 10
      ring_nf
      ring_nf at hdm ⊢
      omega

theorem digitsVal_decDigits (n : Nat) : digitsVal (decDigits n) = n := by
  rw [digitsVal, digitsVal_decDigits_aux n n 0 le_rfl]
  ring_nf

/-- Modelled from the spec: obfuscate mode encoding of one path component
(as a list of character codes): the decimal shift, a dot, then the
class-rotated characters. -/
def obfuscateComponent (key : List Byte) (comp : List Nat) : List Nat :=
  decDigits (obfShift key comp) ++ 46 :: comp.map (rotChar (obfShift key comp))

/-- Modelled from the spec: obfuscate mode decoding: parse the decimal up
to the first dot, reverse the rotation; a missing dot is BadFilename. -/
def deobfuscateComponent (key : List Byte) (cs : List Nat) : Except CryptError (List Nat) :=
  match cs.dropWhile (fun c => decide (48 ≤ c) && decide (c ≤ 57)) with
  | 46 :: payload =>
    .ok (payload.map (unrotChar (digitsVal (cs.takeWhile (fun c => decide (48 ≤ c) && decide (c ≤ 57))))))
  | _ => .error .BadFilename

theorem takeWhile_append_stop (p : Nat → Bool) :
    ∀ (l : List Nat) (x : Nat) (rest : List Nat), (∀ y ∈ l, p y = true) → p x = false →
      (l ++ x :: rest).takeWhile p = l ∧ (l ++ x :: rest).dropWhile p = x :: rest := by
  intro l
  induction l with
  | nil =>
    intro x rest _ hx
    constructor
    · rw [List.nil_append, List.takeWhile_cons, hx]
      simp
    · rw [List.nil_append, List.dropWhile_cons, hx]
      simp
  | cons a t ih =>
    intro x rest hl hx
    have ha : p a = true := hl a (by simp)
    obtain ⟨h1, h2⟩ := ih x rest (fun y hy => hl y (by simp [hy])) hx
    constructor
    · rw [List.cons_append, List.takeWhile_cons, ha]
      simp only [if_true]
      rw [h1]
    · rw [List.cons_append, List.dropWhile_cons, ha]
      simp only [if_true]
      rw [h2]

theorem deobfuscateComponent_obfuscateComponent (key : List Byte) (comp : List Nat) :
    deobfuscateComponent key (obfuscateComponent key comp) = .ok comp := by
  have hdig : ∀ d ∈ decDigits (obfShift key comp),
      (decide (48 ≤ d) && decide (d ≤ 57)) = true := by
    intro d hd
    have := decDigits_range (obfShift key comp) (obfShift key comp) le_rfl d hd
    simp only [Bool.and_eq_true, decide_eq_true_eq]
    omega
  have h46 : (decide (48 ≤ 46) && decide (46 ≤ 57)) = false := by decide
  obtain ⟨htw, hdw⟩ := takeWhile_append_stop _ (decDigits (obfShift key comp)) 46
    (comp.map (rotChar (obfShift key comp))) hdig h46
  rw [deobfuscateComponent, obfuscateComponent, hdw, htw, digitsVal_decDigits]
  simp only [Except.ok.injEq]
  rw [List.map_map]
  have hfun : unrotChar (obfShift key comp) ∘ rotChar (obfShift key comp) = id := by
    funext c
    exact unrotChar_rotChar (obfShift key comp) c
  rw [hfun, List.map_id]

end Crypt

namespace Crypt

/-- The built-in default scrypt salt constant (spec section 4.2):
A8,0D,F4,3A,8F,BD,03,08,A7,CA,B8,3E,58,1F,86,B1. -/
def defaultSalt : List Byte :=
  [0xA8, 0x0D, 0xF4, 0x3A, 0x8F, 0xBD, 0x03, 0x08,
   0xA7, 0xCA, 0xB8, 0x3E, 0x58, 0x1F, 0x86, 0xB1]

/-- The three derived subkeys (spec section 3). -/
structure KeyBundle where
  dataKey : List Byte
  nameKey : List Byte
  nameTweak : List Byte

/-- Modelled from the spec: key derivation of the missing `cipher.go`.
`scryptFn` stands for the external scrypt primitive
(password, salt, N, r, p, dkLen); key derivation invokes it with
N=16384, r=8, p=1 and dkLen=80 over the passphrase bytes and the
configured salt bytes — or the built-in default constant when no salt is
configured — and partitions the 80-byte output. -/
def deriveKeys (scryptFn : List Byte → List Byte → Nat → Nat → Nat → Nat → List Byte)
    (pass : List Byte) (salt : Option (List Byte)) : KeyBundle :=
  let dk := scryptFn pass (salt.getD defaultSalt) 16384 8 1 80
  ⟨dk.take 32, (dk.drop 32).take 32, (dk.drop 64).take 16⟩

/-- Modelled from the spec: listing decode of the wrapping filesystem.
Each backing name is decoded with the standard codec; entries that fail to
decode are skipped (foreign objects), the rest are kept in order.  The
result type has no error: a per-entry failure never aborts the listing. -/
def listDecodeNames (key tweak : List Byte) (names : List (List Char)) : List (List Byte) :=
  names.filterMap (fun e => (decodeComponentStd key tweak e).toOption)

/-- The filename modes of the overlay. -/
inductive NameMode
  | off
  | standard
  | obfuscate
  deriving DecidableEq

/-- Modelled from the spec: `Hashes()` of the wrapping filesystem returns
the empty set of hash kinds in every filename mode, whatever hash kinds
the backing store supports. -/
def cryptHashes {α : Type} (mode : NameMode) (backingHashes : List α) : List α := []

end Crypt

/-- A URL, as passed to cookie jar methods. -/
abbrev Url := String

/-- The fields of Go's `http.Cookie` populated by this repository's code. -/
structure HttpCookie where
  name : String
  value : String
  path : String
  domain : String
  expires : Int
  secure : Bool
  httpOnly : Bool
  deriving DecidableEq

/-- An `http.CookieJar` interface value.  A Go jar mutates itself; here the
jar state `σ` is passed explicitly. -/
structure CookieJar (σ : Type) where
  setCookies : σ → Url → List HttpCookie → σ
  cookies : σ → Url → List HttpCookie

/-- Translated from
`src/vendor/github.com/rmdashrf/go-misc/cookiejar2/immutable.go`:
`SetCookies` has an empty body ("Immutable, prevent set cookies") and
`Cookies` returns `i.Inner.Cookies(u)`. -/
def ImmutableCookieJar {σ : Type} (Inner : CookieJar σ) : CookieJar σ :=
  { setCookies := fun s _ _ => s
    cookies := Inner.cookies }

/-- Translated from the `editthiscookie` source: one entry of an
editthiscookie JSON export.  `ExpirationDate` is a Go `float64`; it is
modelled as an exact rational. -/
structure Entry where
  domain : String
  expirationDate : ℚ
  hostOnly : Bool
  httpOnly : Bool
  name : String
  path : String
  sameSite : String
  secure : Bool
  session : Bool
  storeId : String
  id : Int
  value : String

/-- Go's `strings.Replace(s, old, "", -1)` specialized to a one-character
pattern: every occurrence of `old` is removed. -/
def stringsReplaceChar : List Char → Char → List Char
  | [], _ => []
  | a :: rest, old =>
    if a = old then stringsReplaceChar rest old else a :: stringsReplaceChar rest old

/-- Go's `int64(f)` conversion applied to the float64 `ExpirationDate`
(modelled as a rational): truncation toward zero. -/
def int64OfFloat (q : ℚ) : ℤ := Int.tdiv q.num q.den

/-- Translated from the `editthiscookie` source, `Entry.GoCookie`:
`expiration := time.Unix(int64(e.ExpirationDate), 0)` (the cookie's
`Expires` is modelled by its Unix-seconds value), `Value` is
`strings.Replace(e.Value, "\"", "", -1)`, and Name/Path/Domain/Secure/
HttpOnly are copied. -/
def Entry.GoCookie (e : Entry) : HttpCookie :=
  { name := e.name
    value := String.mk (stringsReplaceChar e.value.data '"')
    path := e.path
    domain := e.domain
    expires := int64OfFloat e.expirationDate
    secure := e.secure
    httpOnly := e.httpOnly }

theorem stringsReplaceChar_eq_filter :
    ∀ (s : List Char) (old : Char),
      stringsReplaceChar s old = s.filter (fun c => c ≠ old) := by
  intro s old
  induction s with
  | nil => rfl
  | cons a rest ih =>
    rw [stringsReplaceChar, List.filter_cons]
    by_cases h : a = old
    · rw [if_pos h, if_neg (by simp [h]), ih]
    · rw [if_neg h, if_pos (by simp [h]), ih]

theorem int64OfFloat_floor (q : ℚ) (h : 0 ≤ q) : int64OfFloat q = ⌊q⌋ := by
  rw [int64OfFloat, Rat.floor_def, Int.tdiv_eq_ediv (Rat.num_nonneg.mpr h) (by positivity)]

theorem int64OfFloat_ceil (q : ℚ) (h : q < 0) : int64OfFloat q = ⌈q⌉ := by
  have h2 : ⌊-q⌋ = -⌈q⌉ := Int.floor_neg
  have h3 : ⌊-q⌋ = (-q).num / ((-q).den : ℤ) := Rat.floor_def
  rw [Rat.neg_num, Rat.neg_den] at h3
  have hnum : q.num < 0 := by
    by_contra hge
    have : 0 ≤ q := Rat.num_nonneg.mp (by omega)
    exact absurd h (by exact not_lt.mpr this)
  have h4 : Int.tdiv (-q.num) q.den = (-q.num) / (q.den : ℤ) :=
    Int.tdiv_eq_ediv (by omega) (by positivity)
  have h5 : Int.tdiv q.num q.den = -Int.tdiv (-q.num) q.den := by
    rw [show q.num = -(-q.num) by ring, Int.neg_tdiv]
    ring_nf
  rw [int64OfFloat]
  omega

/-- C1: for every plaintext byte sequence `P` and every 16-byte header nonce
`N`, decrypting the stream produced by the content cipher's encryptor on `P`
with nonce `N` yields exactly `P`: `decrypt (encrypt P N) = ok P`. -/
theorem C1_content_roundtrip (P N : List Byte) (hN : N.length = 16) :
    Crypt.decrypt (Crypt.encrypt P N) = .ok P :=
  Crypt.decrypt_encrypt P N hN

theorem C1_content_roundtrip_witness :
    (List.replicate 16 (0 : Byte)).length = 16
      ∧ Crypt.decrypt (Crypt.encrypt [7, 42, 255] (List.replicate 16 (0 : Byte)))
          = .ok [7, 42, 255] :=
  ⟨by decide, C1_content_roundtrip [7, 42, 255] (List.replicate 16 (0 : Byte)) (by decide)⟩

/-- C2: for every plaintext length `n > 0`,
`ciphertext_size n = 24 + ceil(n / 65536) * 16 + n` (with
`ceil(n / 65536) = (n + 65535) / 65536`), and `ciphertext_size 0 = 24`;
conversely `plaintext_size` recovers the plaintext length via
`full = (C - 24) / 65552`, `rem = (C - 24) % 65552`, rejecting
`0 < rem ≤ 16` as BadLength; the two are mutually inverse and agree with
the encryptor: `plaintext_size |encrypt P N| = ok |P|`. -/
theorem C2_size_arithmetic (P N : List Byte) (hN : N.length = 16) :
    (Crypt.encrypt P N).length = Crypt.ciphertextSize P.length
    ∧ Crypt.plaintextSize (Crypt.encrypt P N).length = .ok P.length
    ∧ Crypt.ciphertextSize 0 = 24
    ∧ (∀ m : Nat, 0 < m → Crypt.ciphertextSize m = 24 + (m + 65535) / 65536 * 16 + m)
    ∧ (∀ m : Nat, Crypt.plaintextSize (Crypt.ciphertextSize m) = .ok m)
    ∧ Crypt.plaintextSize 24 = .ok 0
    ∧ (∀ C : Nat, 24 < C → (C - 24) % 65552 = 0 →
        Crypt.plaintextSize C = .ok ((C - 24) / 65552 * 65536))
    ∧ (∀ C : Nat, 24 < C → 16 < (C - 24) % 65552 →
        Crypt.plaintextSize C = .ok ((C - 24) / 65552 * 65536 + ((C - 24) % 65552 - 16)))
    ∧ (∀ C : Nat, 24 < C → 0 < (C - 24) % 65552 → (C - 24) % 65552 ≤ 16 →
        Crypt.plaintextSize C = .error .BadLength) := by
  refine ⟨Crypt.length_encrypt P N hN, ?_, rfl, ?_, Crypt.plaintextSize_ciphertextSize, rfl,
    Crypt.plaintextSize_rem_zero, Crypt.plaintextSize_rem_big, Crypt.plaintextSize_badlength⟩
  · rw [Crypt.length_encrypt P N hN, Crypt.plaintextSize_ciphertextSize]
  · intro m hm
    rw [Crypt.ciphertextSize, if_neg (by omega)]

theorem C2_size_arithmetic_witness :
    (List.replicate 16 (0 : Byte)).length = 16
      ∧ (Crypt.encrypt [5] (List.replicate 16 (0 : Byte))).length
          = Crypt.ciphertextSize ([5] : List Byte).length :=
  ⟨by decide, (C2_size_arithmetic [5] (List.replicate 16 (0 : Byte)) (by decide)).1⟩

/-- C3: a seekable read of `encrypt P N` at offset `a` for length `b - a`
returns exactly `P[a:b]`; the decryptor fetches ciphertext starting at
backing offset `24 + (a / 65536) * 65552`, discards the first `a % 65536`
decrypted bytes, and decrypts chunk `k` of the range with nonce
`N + a / 65536 + k` (little-endian 128-bit add, chunk 0 of the stream
using the header nonce verbatim). -/
theorem C3_seekable_read (P N : List Byte) (hN : N.length = 16) (a b : Nat)
    (hab : a ≤ b) (hbP : b ≤ P.length) :
    Crypt.seekRead (Crypt.encrypt P N) a (b - a) = .ok ((P.drop a).take (b - a))
    ∧ Crypt.seekStart a = 24 + a / 65536 * 65552 :=
  ⟨Crypt.seekRead_encrypt P N hN a (b - a), rfl⟩

theorem C3_seekable_read_witness :
    ((List.replicate 16 (3 : Byte)).length = 16 ∧ 1 ≤ 4 ∧ 4 ≤ ([1, 2, 3, 4, 5] : List Byte).length)
      ∧ Crypt.seekRead (Crypt.encrypt [1, 2, 3, 4, 5] (List.replicate 16 (3 : Byte))) 1 (4 - 1)
          = .ok ((([1, 2, 3, 4, 5] : List Byte).drop 1).take (4 - 1)) :=
  ⟨⟨by decide, by decide, by decide⟩,
    (C3_seekable_read [1, 2, 3, 4, 5] (List.replicate 16 (3 : Byte)) (by decide) 1 4
      (by decide) (by decide)).1⟩

/-- C4 (amended): flipping any single bit of any byte of the chunk region
(positions 24 and beyond: chunk bodies and tags) makes decryption fail
with BadAuth.  Truncating the ciphertext by `t ≥ 1` bytes either fails
with BadHeader or BadAuth, or succeeds and returns a proper prefix of
`P`; so a truncated stream never decrypts to `P` itself, but it is not
always rejected. -/
theorem C4_tamper_detection (P N : List Byte) (hN : N.length = 16) :
    (∀ (i : Nat), 24 ≤ i → ∀ (hi : i < (Crypt.encrypt P N).length) (k : Fin 8),
        Crypt.decrypt ((Crypt.encrypt P N).set i (Crypt.flipBit (Crypt.encrypt P N)[i] k))
          = .error .BadAuth)
    ∧ (∀ t : Nat, 1 ≤ t →
        Crypt.decrypt ((Crypt.encrypt P N).take ((Crypt.encrypt P N).length - t))
            = .error .BadHeader
        ∨ Crypt.decrypt ((Crypt.encrypt P N).take ((Crypt.encrypt P N).length - t))
            = .error .BadAuth
        ∨ ∃ s, s < P.length
            ∧ Crypt.decrypt ((Crypt.encrypt P N).take ((Crypt.encrypt P N).length - t))
                = .ok (P.take s)) := by
  have hlen24 : 24 ≤ (Crypt.encrypt P N).length := by
    rw [Crypt.length_encrypt P N hN, Crypt.ciphertextSize]
    by_cases h : P.length = 0
    · rw [if_pos h]
    · rw [if_neg h]
      omega
  constructor
  · intro i hi24 hi k
    exact Crypt.decrypt_set_ne P N hN i hi24 hi _ (Crypt.flipBit_ne _ k)
  · intro t ht
    exact Crypt.decrypt_take P N hN _ (by omega)

theorem C4_tamper_detection_witness :
    ((List.replicate 16 (0 : Byte)).length = 16
        ∧ 24 ≤ 25 ∧ 25 < (Crypt.encrypt [7, 42] (List.replicate 16 (0 : Byte))).length)
      ∧ Crypt.decrypt ((Crypt.encrypt [7, 42] (List.replicate 16 (0 : Byte))).set 25
          (Crypt.flipBit ((Crypt.encrypt [7, 42] (List.replicate 16 (0 : Byte))).get
            ⟨25, by decide⟩) 3))
        = .error .BadAuth :=
  ⟨⟨by decide, by decide, by decide⟩,
    (C4_tamper_detection [7, 42] (List.replicate 16 (0 : Byte)) (by decide)).1 25
      (by decide) (by decide) 3⟩

/-- C4 counterexample: the claim as stated is false.  Truncating the
ciphertext of the 1-byte plaintext `[42]` by 17 bytes (≥ 1) cuts exactly at
the chunk boundary after the header; the truncated stream decrypts
successfully to the empty plaintext instead of failing with BadAuth or
BadLength. -/
theorem C4_truncation_counterexample :
    Crypt.decrypt ((Crypt.encrypt [42] (List.replicate 16 (0 : Byte))).take
        ((Crypt.encrypt [42] (List.replicate 16 (0 : Byte))).length - 17))
      = .ok []
    ∧ (∀ e : CryptError, (Except.ok ([] : List Byte)) ≠ .error e) := by
  refine ⟨by decide, ?_⟩
  intro e h
  exact Except.noConfusion h

/-- C5: key derivation invokes scrypt with N=16384, r=8, p=1 and dkLen=80
over the passphrase and the configured salt bytes (or, when no salt is
configured, the fixed 16-byte constant A8,0D,F4,3A,8F,BD,03,08,A7,CA,B8,3E,
58,1F,86,B1), and partitions the 80-byte output as data_key = bytes 0..31,
name_key = bytes 32..63, name_tweak = bytes 64..79. -/
theorem C5_key_derivation
    (scryptFn : List Byte → List Byte → Nat → Nat → Nat → Nat → List Byte)
    (pass : List Byte) (salt : Option (List Byte))
    (hlen : (scryptFn pass (salt.getD Crypt.defaultSalt) 16384 8 1 80).length = 80) :
    (Crypt.deriveKeys scryptFn pass salt).dataKey
        = (scryptFn pass (salt.getD Crypt.defaultSalt) 16384 8 1 80).take 32
    ∧ (Crypt.deriveKeys scryptFn pass salt).nameKey
        = ((scryptFn pass (salt.getD Crypt.defaultSalt) 16384 8 1 80).drop 32).take 32
    ∧ (Crypt.deriveKeys scryptFn pass salt).nameTweak
        = ((scryptFn pass (salt.getD Crypt.defaultSalt) 16384 8 1 80).drop 64).take 16
    ∧ (Crypt.deriveKeys scryptFn pass salt).dataKey.length = 32
    ∧ (Crypt.deriveKeys scryptFn pass salt).nameKey.length = 32
    ∧ (Crypt.deriveKeys scryptFn pass salt).nameTweak.length = 16
    ∧ (Crypt.deriveKeys scryptFn pass salt).dataKey
        ++ (Crypt.deriveKeys scryptFn pass salt).nameKey
        ++ (Crypt.deriveKeys scryptFn pass salt).nameTweak
        = scryptFn pass (salt.getD Crypt.defaultSalt) 16384 8 1 80
    ∧ Crypt.deriveKeys scryptFn pass none
        = Crypt.deriveKeys scryptFn pass (some Crypt.defaultSalt)
    ∧ Crypt.defaultSalt
        = [0xA8, 0x0D, 0xF4, 0x3A, 0x8F, 0xBD, 0x03, 0x08,
           0xA7, 0xCA, 0xB8, 0x3E, 0x58, 0x1F, 0x86, 0xB1]
    ∧ Crypt.defaultSalt.length = 16 := by
  refine ⟨rfl, rfl, rfl, ?_, ?_, ?_, ?_, rfl, rfl, rfl⟩
  · show ((scryptFn pass (salt.getD Crypt.defaultSalt) 16384 8 1 80).take 32).length = 32
    rw [List.length_take, hlen]
    decide
  · show (((scryptFn pass (salt.getD Crypt.defaultSalt) 16384 8 1 80).drop 32).take 32).length
        = 32
    rw [List.length_take, List.length_drop, hlen]
    decide
  · show (((scryptFn pass (salt.getD Crypt.defaultSalt) 16384 8 1 80).drop 64).take 16).length
        = 16
    rw [List.length_take, List.length_drop, hlen]
    decide
  · show (scryptFn pass (salt.getD Crypt.defaultSalt) 16384 8 1 80).take 32
        ++ ((scryptFn pass (salt.getD Crypt.defaultSalt) 16384 8 1 80).drop 32).take 32
        ++ ((scryptFn pass (salt.getD Crypt.defaultSalt) 16384 8 1 80).drop 64).take 16
        = scryptFn pass (salt.getD Crypt.defaultSalt) 16384 8 1 80
    have h64 : ((scryptFn pass (salt.getD Crypt.defaultSalt) 16384 8 1 80).drop 64).take 16
        = (scryptFn pass (salt.getD Crypt.defaultSalt) 16384 8 1 80).drop 64 :=
      List.take_of_length_le (by rw [List.length_drop, hlen])
    have h32 : ((scryptFn pass (salt.getD Crypt.defaultSalt) 16384 8 1 80).drop 32).take 32
          ++ (scryptFn pass (salt.getD Crypt.defaultSalt) 16384 8 1 80).drop 64
        = (scryptFn pass (salt.getD Crypt.defaultSalt) 16384 8 1 80).drop 32 := by
      have hdd : (scryptFn pass (salt.getD Crypt.defaultSalt) 16384 8 1 80).drop 64
          = ((scryptFn pass (salt.getD Crypt.defaultSalt) 16384 8 1 80).drop 32).drop 32 := by
        rw [List.drop_drop]
      rw [hdd, List.take_append_drop]
    rw [h64, List.append_assoc, h32, List.take_append_drop]

theorem C5_key_derivation_witness :
    ((fun (_ _ : List Byte) (_ _ _ dkLen : Nat) => List.replicate dkLen (0 : Byte))
        [1, 2] ((none : Option (List Byte)).getD Crypt.defaultSalt) 16384 8 1 80).length = 80
    ∧ (Crypt.deriveKeys
          (fun (_ _ : List Byte) (_ _ _ dkLen : Nat) => List.replicate dkLen (0 : Byte))
          [1, 2] none).dataKey
        = ((fun (_ _ : List Byte) (_ _ _ dkLen : Nat) => List.replicate dkLen (0 : Byte))
            [1, 2] ((none : Option (List Byte)).getD Crypt.defaultSalt) 16384 8 1 80).take 32 :=
  ⟨by decide,
    (C5_key_derivation
      (fun (_ _ : List Byte) (_ _ _ dkLen : Nat) => List.replicate dkLen (0 : Byte))
      [1, 2] none (by decide)).1⟩

/-- C6: in filename modes standard and obfuscate, decode(encode F) = F for
every component F, encoding is deterministic, and in standard mode every
encoded component consists only of the lowercase base32 characters
[a-z2-7] and never contains '='. -/
theorem C6_filename_codec (key tweak : List Byte) :
    (∀ F : List Byte,
        Crypt.decodeComponentStd key tweak (Crypt.encodeComponentStd key tweak F) = .ok F)
    ∧ (∀ F : List Nat,
        Crypt.deobfuscateComponent key (Crypt.obfuscateComponent key F) = .ok F)
    ∧ (∀ F G : List Byte, F = G →
        Crypt.encodeComponentStd key tweak F = Crypt.encodeComponentStd key tweak G)
    ∧ (∀ F G : List Nat, F = G →
        Crypt.obfuscateComponent key F = Crypt.obfuscateComponent key G)
    ∧ (∀ F : List Byte, ∀ c ∈ Crypt.encodeComponentStd key tweak F,
        c ∈ Crypt.alpha32 ∧ c ≠ '=') := by
  refine ⟨Crypt.decodeComponentStd_encodeComponentStd key tweak,
    Crypt.deobfuscateComponent_obfuscateComponent key,
    fun F G h => by rw [h], fun F G h => by rw [h], ?_⟩
  intro F c hc
  have hmem : c ∈ Crypt.alpha32 := Crypt.mem_base32encode_alpha _ c hc
  refine ⟨hmem, ?_⟩
  intro hEq
  subst hEq
  exact absurd hmem (by decide)

theorem C6_filename_codec_witness :
    (Crypt.decodeComponentStd [1] [2] (Crypt.encodeComponentStd [1] [2] [104, 105])
        = .ok [104, 105]
      ∧ Crypt.deobfuscateComponent [1] (Crypt.obfuscateComponent [1] [50, 46, 97])
        = .ok [50, 46, 97])
    ∧ (([104] : List Byte) = [104]
      ∧ Crypt.encodeComponentStd [1] [2] [104] = Crypt.encodeComponentStd [1] [2] [104])
    ∧ ('n' ∈ Crypt.encodeComponentStd [1] [2] [104]
      ∧ 'n' ∈ Crypt.alpha32 ∧ 'n' ≠ '=') :=
  ⟨⟨(C6_filename_codec [1] [2]).1 [104, 105],
    (C6_filename_codec [1] [2]).2.1 [50, 46, 97]⟩,
   ⟨rfl, (C6_filename_codec [1] [2]).2.2.1 [104] [104] rfl⟩,
   ⟨by decide, (C6_filename_codec [1] [2]).2.2.2.2 [104] 'n' (by decide)⟩⟩

/-- C7: decoding a backing listing skips every entry whose name fails to
decode while all remaining entries are still decoded and returned in
order; a per-entry decode failure never makes List return an error (the
listing operation is total). -/
theorem C7_listing_skips_bad_names (key tweak : List Byte) :
    (∀ (pre post : List (List Char)) (e : List Char),
        Crypt.decodeComponentStd key tweak e = .error .BadFilename →
        Crypt.listDecodeNames key tweak (pre ++ e :: post)
          = Crypt.listDecodeNames key tweak (pre ++ post))
    ∧ (∀ (names : List (List Char)) (e : List Char) (m : List Byte),
        e ∈ names → Crypt.decodeComponentStd key tweak e = .ok m →
        m ∈ Crypt.listDecodeNames key tweak names)
    ∧ (∀ names : List (List Char),
        (∀ e ∈ names, ∃ m, Crypt.decodeComponentStd key tweak e = .ok m) →
        (Crypt.listDecodeNames key tweak names).length = names.length)
    ∧ (∀ names : List (List Char),
        (Crypt.listDecodeNames key tweak names).length ≤ names.length) := by
  refine ⟨?_, ?_, ?_, ?_⟩
  · intro pre post e hbad
    rw [Crypt.listDecodeNames, Crypt.listDecodeNames, List.filterMap_append,
      List.filterMap_append]
    congr 1
    rw [List.filterMap_cons]
    rw [show (Crypt.decodeComponentStd key tweak e).toOption = none from by rw [hbad]; rfl]
  · intro names e m he hm
    exact List.mem_filterMap.mpr ⟨e, he, by rw [hm]; rfl⟩
  · intro names hall
    induction names with
    | nil => rfl
    | cons a t ih =>
      obtain ⟨m, hm⟩ := hall a (by simp)
      rw [Crypt.listDecodeNames, List.filterMap_cons,
        show (Crypt.decodeComponentStd key tweak a).toOption = some m from by rw [hm]; rfl]
      simp only [List.length_cons]
      rw [show Crypt.listDecodeNames key tweak t
          = List.filterMap (fun e => (Crypt.decodeComponentStd key tweak e).toOption) t
          from rfl] at ih
      rw [ih (fun e he => hall e (by simp [he]))]
  · intro names
    exact List.length_filterMap_le _ _

theorem C7_listing_skips_bad_names_witness :
    Crypt.decodeComponentStd [] [] ['A'] = .error .BadFilename
    ∧ Crypt.listDecodeNames [] [] ([] ++ ['A'] :: [])
        = Crypt.listDecodeNames [] [] ([] ++ []) :=
  ⟨by decide, (C7_listing_skips_bad_names [] []).1 [] [] ['A'] (by decide)⟩

/-- C8: the overlay's Hashes() operation returns the empty set of hash
kinds in every filename mode (off, standard, obfuscate), regardless of
which hash kinds the backing store supports. -/
theorem C8_hashes_empty :
    ∀ (α : Type) (mode : Crypt.NameMode) (backingHashes : List α),
      Crypt.cryptHashes mode backingHashes = [] :=
  fun _ _ _ => rfl

/-- C9: ImmutableCookieJar.SetCookies leaves the jar state completely
unchanged for every URL and cookie list, Cookies returns exactly
Inner.Cookies, and hence no sequence of SetCookies calls can ever alter
what Cookies returns. -/
theorem C9_immutable_cookie_jar {σ : Type} (Inner : CookieJar σ) (s : σ) (u : Url)
    (cs : List HttpCookie) :
    (ImmutableCookieJar Inner).setCookies s u cs = s
    ∧ (ImmutableCookieJar Inner).cookies s u = Inner.cookies s u
    ∧ ∀ calls : List (Url × List HttpCookie),
        (ImmutableCookieJar Inner).cookies
          (calls.foldl (fun st c => (ImmutableCookieJar Inner).setCookies st c.1 c.2) s) u
          = Inner.cookies s u := by
  refine ⟨rfl, rfl, ?_⟩
  intro calls
  have hfold : ∀ (l : List (Url × List HttpCookie)) (st : σ),
      l.foldl (fun st c => (ImmutableCookieJar Inner).setCookies st c.1 c.2) st = st := by
    intro l
    induction l with
    | nil => intro st; rfl
    | cons a t ih => intro st; exact ih st
  rw [hfold]
  rfl

/-- C10: Entry.GoCookie returns an http.Cookie whose Value is the entry's
Value with every double-quote removed, whose Expires is the Unix time from
truncating ExpirationDate toward zero (floor for nonnegative, ceiling for
negative values), whose Name, Path, Domain, Secure and HttpOnly are copied
verbatim, and which ignores SameSite, Session, StoreId and Id. -/
theorem C10_gocookie (e : Entry) :
    (e.GoCookie).name = e.name
    ∧ (e.GoCookie).path = e.path
    ∧ (e.GoCookie).domain = e.domain
    ∧ (e.GoCookie).secure = e.secure
    ∧ (e.GoCookie).httpOnly = e.httpOnly
    ∧ (e.GoCookie).value.data = e.value.data.filter (fun c => c ≠ '"')
    ∧ (0 ≤ e.expirationDate → (e.GoCookie).expires = ⌊e.expirationDate⌋)
    ∧ (e.expirationDate < 0 → (e.GoCookie).expires = ⌈e.expirationDate⌉)
    ∧ (∀ (ss : String) (se : Bool) (st : String) (id : Int),
        Entry.GoCookie { e with sameSite := ss, session := se, storeId := st, id := id }
          = e.GoCookie) := by
  refine ⟨rfl, rfl, rfl, rfl, rfl, ?_, ?_, ?_, ?_⟩
  · show (stringsReplaceChar e.value.data '"') = _
    exact stringsReplaceChar_eq_filter e.value.data '"'
  · intro h
    exact int64OfFloat_floor e.expirationDate h
  · intro h
    exact int64OfFloat_ceil e.expirationDate h
  · intro ss se st id
    rfl

theorem C10_gocookie_witness :
    (0 : ℚ) ≤ (3 : ℚ)
    ∧ (Entry.GoCookie
        { domain := "example.com", expirationDate := (3 : ℚ), hostOnly := false,
          httpOnly := true, name := "n", path := "/", sameSite := "", secure := true,
          session := false, storeId := "", id := 0, value := "a\"b" }).expires
      = ⌊(3 : ℚ)⌋ :=
  ⟨by decide,
    (C10_gocookie
      { domain := "example.com", expirationDate := (3 : ℚ), hostOnly := false,
        httpOnly := true, name := "n", path := "/", sameSite := "", secure := true,
        session := false, storeId := "", id := 0, value := "a\"b" }).2.2.2.2.2.2.1
      (by decide)⟩
